import Mathlib

/-!
Verification of the Streaming-to-Speech Pipeline of the Forensic Avatar
frontend: a shallow embedding of the SSE frame decoder
(src/lib/api.ts, function analyzeStream) and of the speech playback
controller (src/hooks/useTextToSpeech.ts), together with proofs of the
spec's testable properties.

Strings are modelled as lists of characters (`Str`).  Wall-clock
instants are naturals (milliseconds).  The single-threaded,
callback-driven execution of the hook is modelled as a state machine
driven by explicit events (token arrival, utterance completion,
utterance error, the 100 ms continuation timer, stop, flush); the
platform speech engine is abstracted by recording each dispatched
utterance text in a `spoken` log.
-/

namespace ForensicAvatar

abbrev Str := List Char

/-- The character class matched by the JavaScript regex escape \s
(ECMAScript WhiteSpace and LineTerminator characters), used by
String.prototype.trim and by the \s occurrences in the source regexes. -/
def wsChar (c : Char) : Bool :=
  c = ' ' || c = '\t' || c = '\n' || c = '\r' ||
  c = Char.ofNat 11 || c = Char.ofNat 12 ||
  c = Char.ofNat 0xa0 || c = Char.ofNat 0x1680 ||
  (0x2000 ≤ c.toNat && c.toNat ≤ 0x200a) ||
  c = Char.ofNat 0x2028 || c = Char.ofNat 0x2029 ||
  c = Char.ofNat 0x202f || c = Char.ofNat 0x205f ||
  c = Char.ofNat 0x3000 || c = Char.ofNat 0xfeff

/-- Sentence-terminal punctuation, the class [.!?] of the source. -/
def termChar (c : Char) : Bool :=
  c = '.' || c = '!' || c = '?'

/-- Left part of JavaScript String.prototype.trim. -/
def trimLeft (l : Str) : Str := l.dropWhile wsChar

/-- Right part of JavaScript String.prototype.trim. -/
def trimRight (l : Str) : Str := (l.reverse.dropWhile wsChar).reverse

/-- JavaScript String.prototype.trim: strip whitespace at both ends. -/
def jsTrim (l : Str) : Str := trimRight (trimLeft l)

/-- Whether every character of the string is whitespace. -/
def isWsStr (l : Str) : Bool := l.all wsChar

/-- The test of the regex /[.!?]\s*$/ (used by speakToken, speak and
flush): after discarding trailing whitespace the string ends with
sentence-terminal punctuation. -/
def endsTermWs (l : Str) : Bool :=
  match l.reverse.dropWhile wsChar with
  | [] => false
  | c :: _ => termChar c

/-- Scan for the first sentence-terminal character: returns the prefix
up to and including it, and the rest.  This is the group/after split of
the lazy regex /^(.*?[.!?])/s. -/
def splitAtTerm : Str → Option (Str × Str)
  | [] => none
  | c :: cs =>
    if termChar c then some ([c], cs)
    else
      match splitAtTerm cs with
      | some (g, r) => some (c :: g, r)
      | none => none

/-- The sentence extraction of processText: the match of
/^(.*?[.!?])\s*/s on the pending buffer.  Returns the trimmed captured
sentence (group 1 trimmed, the source's rawSentence) and the buffer
after the full match (the source's text.slice(sentenceMatch[0].length)),
i.e. after the terminator and the following whitespace run. -/
def extract (l : Str) : Option (Str × Str) :=
  match splitAtTerm l with
  | none => none
  | some (g, r) => some (jsTrim g, r.dropWhile wsChar)

/- ------------------------------------------------------------------
cleanTextForSpeech (src/hooks/useTextToSpeech.ts, lines 112-128): the
eight chained regex replaces, in source order.
------------------------------------------------------------------- -/

/-- The symbol class of the first replace,
[*#@$%^&()_+=\[\]\x7b\x7d|\\<>\/~\x60"]. -/
def symbolChar (c : Char) : Bool :=
  c = '*' || c = '#' || c = '@' || c = '$' || c = '%' || c = '^' ||
  c = '&' || c = '(' || c = ')' || c = '_' || c = '+' || c = '=' ||
  c = '[' || c = ']' || c = Char.ofNat 123 || c = Char.ofNat 125 ||
  c = '|' || c = '\\' || c = '<' || c = '>' || c = '/' || c = '~' ||
  c = Char.ofNat 96 || c = Char.ofNat 34

/-- The class [-_] of the dash-run replace. -/
def dashUnd (c : Char) : Bool := c = '-' || c = '_'

mutual

/-- The replace of /[-_]\x7b2,\x7d/g by a single space: a run of two or
more dashes/underscores becomes one space, a single one is kept. -/
def collapseDashes : Str → Str
  | [] => []
  | c :: cs =>
    if dashUnd c then
      match cs with
      | d :: _ => if dashUnd d then ' ' :: dashSkip cs else c :: collapseDashes cs
      | [] => [c]
    else c :: collapseDashes cs

/-- Skip the remaining characters of a dash/underscore run. -/
def dashSkip : Str → Str
  | [] => []
  | c :: cs => if dashUnd c then dashSkip cs else c :: collapseDashes cs

end

/-- Line terminators after which the multiline anchor ^ matches. -/
def nlChar (c : Char) : Bool :=
  c = '\n' || c = '\r' || c = Char.ofNat 0x2028 || c = Char.ofNat 0x2029

/-- The bullet class [-•·] of the list-marker replace. -/
def bulletChar (c : Char) : Bool := c = '-' || c = '•' || c = '·'

/-- Try to match [\s]*[-•·]\s* at the current position.  On success
returns the last consumed character (to know whether the next position
is a line start) and the rest of the string. -/
def tryBullet (l : Str) : Option (Char × Str) :=
  match l.dropWhile wsChar with
  | b :: r =>
    if bulletChar b then
      let w2 := r.takeWhile wsChar
      some ((if w2 = [] then b else w2.getLastD b), r.dropWhile wsChar)
    else none
  | [] => none

/-- The replace of /^[\s]*[-•·]\s*/gm by the empty string: at every
line-start position, a whitespace run followed by a bullet and trailing
whitespace is deleted.  `prev` is the character before the current
position (none at the start of the string); fuel bounds the recursion
(any fuel above the string length is enough). -/
def stripBulletsF : Nat → Option Char → Str → Str
  | 0, _, l => l
  | f + 1, prev, l =>
    match l with
    | [] => []
    | c :: cs =>
      let atStart := match prev with | none => true | some p => nlChar p
      if atStart then
        match tryBullet (c :: cs) with
        | some (lastC, rest) => stripBulletsF f (some lastC) rest
        | none => c :: stripBulletsF f (some c) cs
      else c :: stripBulletsF f (some c) cs

/-- The list-marker replace, with enough fuel. -/
def stripBullets (l : Str) : Str := stripBulletsF (l.length + 1) none l

/-- The replace of a doubled character (the /\*\*/g and /__/g replaces)
by the empty string, left to right, non-overlapping. -/
def removePairs (p : Char) : Str → Str
  | [] => []
  | c :: cs =>
    if c = p then
      match cs with
      | d :: ds => if d = p then removePairs p ds else c :: removePairs p (d :: ds)
      | [] => [c]
    else c :: removePairs p cs

mutual

/-- The replace of /\s+/g by a single space. -/
def collapseWs : Str → Str
  | [] => []
  | c :: cs => if wsChar c then ' ' :: wsSkip cs else c :: collapseWs cs

/-- Skip the remaining characters of a whitespace run. -/
def wsSkip : Str → Str
  | [] => []
  | c :: cs => if wsChar c then wsSkip cs else c :: collapseWs cs

end

/-- cleanTextForSpeech: the eight replaces of the source, chained in
order, followed by trim. -/
def cleanTextForSpeech (l : Str) : Str :=
  let s1 := l.filter (fun c => !symbolChar c)
  let s2 := collapseDashes s1
  let s3 := stripBullets s2
  let s4 := removePairs '*' s3
  let s5 := s4.filter (fun c => c ≠ '*')
  let s6 := removePairs '_' s5
  let s7 := s6.map (fun c => if c = '_' then ' ' else c)
  jsTrim (collapseWs s7)

/- ------------------------------------------------------------------
The speech playback controller (src/hooks/useTextToSpeech.ts).

The hook's refs and React state are gathered into one record; the
dispatched utterance texts are appended to a `spoken` log (in the
source, each dispatch builds a SpeechSynthesisUtterance and hands it to
speechSynthesis.speak).  The voice chosen by getBestVoice and the fixed
prosody parameters do not affect which texts are spoken, so they are
not modelled.
------------------------------------------------------------------- -/

/-- The pause threshold STREAM_PAUSE_THRESHOLD (ms). -/
def STREAM_PAUSE_THRESHOLD : Nat := 250

structure TTSState where
  pendingText : Str
  isProcessing : Bool
  streamActive : Bool
  isStreamingMode : Bool
  isSpeaking : Bool
  lastTokenTime : Nat
  /-- whether a setTimeout(processText, 100) continuation is pending -/
  timerPending : Bool
  /-- texts handed to speechSynthesis.speak, oldest first -/
  spoken : List Str
  deriving Repr, DecidableEq

/-- The initial state of the hook's refs. -/
def initTTS : TTSState :=
  { pendingText := [], isProcessing := false, streamActive := false,
    isStreamingMode := false, isSpeaking := false, lastTokenTime := 0,
    timerPending := false, spoken := [] }

/-- isStreamActive (lines 131-135): the stream counts as active while
the last token is more recent than the pause threshold. -/
def isStreamActive (now : Nat) (s : TTSState) : Bool :=
  s.streamActive && (now - s.lastTokenTime < STREAM_PAUSE_THRESHOLD)

/-- processText (lines 137-217), with explicit fuel for the recursive
call made when a sentence cleans to the empty string.  Any fuel of at
least the pending-buffer length is enough, and the wrapper
`processText` passes exactly that. -/
def processTextF : Nat → TTSState → TTSState
  | 0, s => s
  | f + 1, s =>
    if s.isProcessing || jsTrim s.pendingText = [] then s
    else
      match extract s.pendingText with
      | some (raw, rest) =>
        let sentence := cleanTextForSpeech raw
        if sentence = [] then
          if rest ≠ [] then processTextF f { s with pendingText := rest }
          else { s with pendingText := rest }
        else
          { s with pendingText := rest, isProcessing := true,
                   isSpeaking := true, spoken := s.spoken ++ [sentence] }
      | none =>
        if s.isStreamingMode then s
        else
          let sentence := cleanTextForSpeech (jsTrim s.pendingText)
          if sentence = [] then { s with pendingText := [] }
          else
            { s with pendingText := [], isProcessing := true,
                     isSpeaking := true, spoken := s.spoken ++ [sentence] }

/-- processText. -/
def processText (s : TTSState) : TTSState :=
  processTextF s.pendingText.length s

/-- The onend callback of a dispatched utterance (lines 182-198).  It
only ever runs for the utterance in flight, so it is a no-op when no
utterance is being processed.  `now` is the time at which the utterance
completes. -/
def onUtteranceEnd (now : Nat) (s : TTSState) : TTSState :=
  if !s.isProcessing then s
  else
    let s1 := { s with isProcessing := false }
    if jsTrim s1.pendingText ≠ [] then
      if !s1.isStreamingMode || isStreamActive now s1 then
        { s1 with timerPending := true }
      else
        { s1 with isSpeaking := false }
    else
      { s1 with isSpeaking := false, isStreamingMode := false }

/-- The onerror callback of a dispatched utterance (lines 200-213):
like completion, but the continuation runs processText directly instead
of scheduling it, and the streaming-mode flag is not reset on an empty
buffer. -/
def onUtteranceError (now : Nat) (s : TTSState) : TTSState :=
  if !s.isProcessing then s
  else
    let s1 := { s with isProcessing := false }
    if jsTrim s1.pendingText ≠ [] then
      if !s1.isStreamingMode || isStreamActive now s1 then processText s1
      else { s1 with isSpeaking := false }
    else { s1 with isSpeaking := false }

/-- Firing of the setTimeout(processText, 100) continuation. -/
def timerFire (s : TTSState) : TTSState :=
  if s.timerPending then processText { s with timerPending := false } else s

/-- speakToken (lines 238-251): append the token, refresh liveness,
enter streaming mode, and dispatch if idle and the buffer ends in
sentence-terminal punctuation. -/
def speakToken (now : Nat) (tok : Str) (s : TTSState) : TTSState :=
  let s1 := { s with pendingText := s.pendingText ++ tok,
                     lastTokenTime := now, streamActive := true,
                     isStreamingMode := true }
  if !s1.isProcessing && endsTermWs s1.pendingText then processText s1 else s1

/-- stop (lines 253-261): cancel the engine, clear the buffer, reset
the flags.  The source does not clear a pending continuation timer, so
timerPending is kept; the spoken log records history and is kept. -/
def ttsStop (s : TTSState) : TTSState :=
  { s with pendingText := [], isProcessing := false, streamActive := false,
           isStreamingMode := false, lastTokenTime := 0, isSpeaking := false }

/-- speak (lines 219-236): one-shot, non-streaming speech. -/
def ttsSpeak (now : Nat) (text : Str) (s : TTSState) : TTSState :=
  let p := if endsTermWs text then text else text ++ ['.']
  processText { s with isStreamingMode := false, streamActive := true,
                       lastTokenTime := now, isProcessing := false,
                       pendingText := p }

/-- flush (lines 263-275): leave streaming mode, refresh liveness,
append a terminal period if the non-blank buffer lacks one, and
dispatch if idle. -/
def flush (now : Nat) (s : TTSState) : TTSState :=
  let s1 := { s with isStreamingMode := false, streamActive := true,
                     lastTokenTime := now }
  let s2 := if jsTrim s1.pendingText ≠ [] && !endsTermWs s1.pendingText
            then { s1 with pendingText := s1.pendingText ++ ['.'] }
            else s1
  if !s2.isProcessing then processText s2 else s2

/-- The state flush builds before the dispatch check, when no period is
appended (blank or already-punctuated buffer). -/
def flushPre (now : Nat) (s : TTSState) : TTSState :=
  { s with isStreamingMode := false, streamActive := true, lastTokenTime := now }

/-- The state flush builds before the dispatch check, when a terminal
period is appended to the buffer. -/
def flushApp (now : Nat) (s : TTSState) : TTSState :=
  { s with isStreamingMode := false, streamActive := true,
           lastTokenTime := now, pendingText := s.pendingText ++ ['.'] }

/-- The events that drive the controller: the exported operations plus
the engine callbacks and the continuation timer. -/
inductive TTSEvent where
  | feed (now : Nat) (tok : Str)
  | flushEv (now : Nat)
  | stopEv
  | speakEv (now : Nat) (text : Str)
  | utterEnd (now : Nat)
  | utterErr (now : Nat)
  | timer
  deriving Repr, DecidableEq

def ttsStep (s : TTSState) : TTSEvent → TTSState
  | TTSEvent.feed now tok => speakToken now tok s
  | TTSEvent.flushEv now => flush now s
  | TTSEvent.stopEv => ttsStop s
  | TTSEvent.speakEv now text => ttsSpeak now text s
  | TTSEvent.utterEnd now => onUtteranceEnd now s
  | TTSEvent.utterErr now => onUtteranceError now s
  | TTSEvent.timer => timerFire s

def runEvents (evs : List TTSEvent) (s : TTSState) : TTSState :=
  evs.foldl ttsStep s

/-- The tokens fed in an event sequence, in order. -/
def feedsOf : List TTSEvent → List Str
  | [] => []
  | TTSEvent.feed _ tok :: es => tok :: feedsOf es
  | _ :: es => feedsOf es

/-- Events permitted between the token feeds of a streaming turn:
besides the feeds themselves, only the engine callbacks and the
continuation timer (no stop, speak or flush). -/
def allowedEv : TTSEvent → Bool
  | TTSEvent.feed _ _ => true
  | TTSEvent.utterEnd _ => true
  | TTSEvent.utterErr _ => true
  | TTSEvent.timer => true
  | _ => false

/-- Drive the controller to quiescence after a flush: `n` rounds of
utterance completion followed by the continuation timer. -/
def drain (now : Nat) : Nat → TTSState → TTSState
  | 0, s => s
  | n + 1, s => drain now n (timerFire (onUtteranceEnd now s))

/- ------------------------------------------------------------------
Reference sentence split: repeated application of the extraction step,
used to state the streaming correspondence property.
------------------------------------------------------------------- -/

/-- Iterate the sentence extraction exactly `k` times; none when fewer
than `k` sentences can be extracted. -/
def sentK : Nat → Str → Option (List Str × Str)
  | 0, l => some ([], l)
  | k + 1, l =>
    match extract l with
    | none => none
    | some (s, r) =>
      match sentK k r with
      | some (ss, rem) => some (s :: ss, rem)
      | none => none

/-- Extract sentences while possible (fuelled; each extraction consumes
at least one character, so any fuel above the length is enough). -/
def splitRemF : Nat → Str → List Str × Str
  | 0, l => ([], l)
  | f + 1, l =>
    match extract l with
    | none => ([], l)
    | some (s, r) =>
      let p := splitRemF f r
      (s :: p.1, p.2)

/-- The sentence split of a string: all extractable sentences and the
unsplittable remainder. -/
def splitRem (l : Str) : List Str × Str := splitRemF (l.length + 1) l

def sentencesOf (l : Str) : List Str := (splitRem l).1

/-- The text a flush-terminated turn effectively processes: flush
appends a terminal period when the non-blank buffer lacks one. -/
def flushedText (fed : Str) : Str :=
  if jsTrim fed ≠ [] && !endsTermWs fed then fed ++ ['.'] else fed

/-- The utterances a turn feeding `fed` and ending in flush() should
produce: each extracted sentence of the flushed text, cleaned, with
empty-after-cleaning units skipped. -/
def expectedSpoken (fed : Str) : List Str :=
  ((sentencesOf (flushedText fed)).map cleanTextForSpeech).filter (fun x => x ≠ [])

/- ------------------------------------------------------------------
The SSE frame decoder (src/lib/api.ts, analyzeStream, lines 111-141).
------------------------------------------------------------------- -/

def dquote : Char := Char.ofNat 34
def lbrace : Char := Char.ofNat 123
def rbrace : Char := Char.ofNat 125

/-- Scalar JSON values. -/
inductive JPrim where
  | jstr : Str → JPrim
  | jnum : Int → JPrim
  | jbool : Bool → JPrim
  | jnull : JPrim
  deriving Repr, DecidableEq

/-- JSON values as produced by JSON.parse on the stream protocol's
payloads: flat objects with string / number / boolean / null members,
or such a scalar at top level.  (Nested objects, arrays, escape
sequences and fractional numbers do not occur in the protocol and are
treated as unparseable.) -/
inductive JVal where
  | prim : JPrim → JVal
  | jobj : List (Str × JPrim) → JVal
  deriving Repr, DecidableEq

/-- JSON insignificant whitespace. -/
def jsonWs (c : Char) : Bool := c = ' ' || c = '\t' || c = '\n' || c = '\r'

def skipWs (l : Str) : Str := l.dropWhile jsonWs

/-- Parse the body of a double-quoted string (opening quote already
consumed); escape sequences are not modelled. -/
def parseStrBody : Str → Option (Str × Str)
  | [] => none
  | c :: r =>
    if c = dquote then some ([], r)
    else if c = '\\' then none
    else
      match parseStrBody r with
      | some (s, rest) => some (c :: s, rest)
      | none => none

def digitVal (c : Char) : Nat := c.toNat - 48

/-- Parse an integer JSON number. -/
def parseNum (l : Str) : Option (Int × Str) :=
  let (neg, l1) := match l with
                   | c :: r => if c = '-' then (true, r) else (false, l)
                   | [] => (false, l)
  let ds := l1.takeWhile Char.isDigit
  let rest := l1.dropWhile Char.isDigit
  if ds = [] then none
  else
    match rest with
    | c :: _ => if c = '.' || c = 'e' || c = 'E' then none
                else some (if neg then -(ds.foldl (fun a c => 10 * a + digitVal c) 0 : Int)
                           else (ds.foldl (fun a c => 10 * a + digitVal c) 0 : Int), rest)
    | [] => some (if neg then -(ds.foldl (fun a c => 10 * a + digitVal c) 0 : Int)
                  else (ds.foldl (fun a c => 10 * a + digitVal c) 0 : Int), rest)

/-- Parse a scalar JSON value. -/
def parseScalar (l : Str) : Option (JPrim × Str) :=
  match l with
  | [] => none
  | c :: r =>
    if c = dquote then
      match parseStrBody r with
      | some (s, rest) => some (JPrim.jstr s, rest)
      | none => none
    else if c = 't' then
      match r with
      | 'r' :: 'u' :: 'e' :: rest => some (JPrim.jbool true, rest)
      | _ => none
    else if c = 'f' then
      match r with
      | 'a' :: 'l' :: 's' :: 'e' :: rest => some (JPrim.jbool false, rest)
      | _ => none
    else if c = 'n' then
      match r with
      | 'u' :: 'l' :: 'l' :: rest => some (JPrim.jnull, rest)
      | _ => none
    else if c = '-' || c.isDigit then
      match parseNum l with
      | some (n, rest) => some (JPrim.jnum n, rest)
      | none => none
    else none

/-- Parse one key/value member of an object. -/
def parsePair (l : Str) : Option ((Str × JPrim) × Str) :=
  match l with
  | c :: r =>
    if c = dquote then
      match parseStrBody r with
      | some (k, r2) =>
        match skipWs r2 with
        | d :: r4 =>
          if d = ':' then
            match parseScalar (skipWs r4) with
            | some (v, r5) => some ((k, v), r5)
            | none => none
          else none
        | [] => none
      | none => none
    else none
  | [] => none

/-- Parse the members of an object after the opening brace (positioned
at the first key), fuelled. -/
def parsePairs : Nat → Str → Option (List (Str × JPrim) × Str)
  | 0, _ => none
  | f + 1, l =>
    match parsePair l with
    | none => none
    | some (p, r) =>
      match skipWs r with
      | c :: r2 =>
        if c = ',' then
          match parsePairs f (skipWs r2) with
          | some (ps, rest) => some (p :: ps, rest)
          | none => none
        else if c = rbrace then some ([p], r2)
        else none
      | [] => none

/-- JSON.parse on the protocol's payload fragment: a flat object or a
scalar, with nothing but whitespace around it; anything else fails. -/
def jsonParse (l : Str) : Option JVal :=
  match skipWs l with
  | [] => none
  | c :: r =>
    if c = lbrace then
      match skipWs r with
      | [] => none
      | d :: r2 =>
        if d = rbrace then
          if skipWs r2 = [] then some (JVal.jobj []) else none
        else
          match parsePairs (l.length + 1) (skipWs r) with
          | some (ps, rest) => if skipWs rest = [] then some (JVal.jobj ps) else none
          | none => none
    else
      match parseScalar (c :: r) with
      | some (v, rest) => if skipWs rest = [] then some (JVal.prim v) else none
      | none => none

/-- One decoded stream event (the source's AnalyzeStreamEvent). -/
structure StreamEvent where
  event : Str
  data : JVal
  deriving Repr, DecidableEq

/-- The decoder loop's state: the partial-line buffer, the pending
event name, and the events emitted so far (calls to onEvent, oldest
first). -/
structure DecState where
  buffer : Str
  currentEvent : Str
  events : List StreamEvent
  deriving Repr, DecidableEq

def initDec : DecState :=
  { buffer := [], currentEvent := [], events := [] }

/-- Processing of one complete line ("for (const line of lines)" body,
lines 123-140): an event: line sets the pending kind; a data: line with
a non-empty payload emits an event when the payload parses (the kind
defaulting to "message" when none is pending), and in every case resets
the pending kind. -/
def processLine (s : DecState) (line : Str) : DecState :=
  let t := jsTrim line
  if "event:".toList.isPrefixOf t then
    { s with currentEvent := jsTrim (t.drop 6) }
  else if "data:".toList.isPrefixOf t then
    let jsonStr := jsTrim (t.drop 5)
    let s1 :=
      if jsonStr ≠ [] then
        match jsonParse jsonStr with
        | some d =>
          { s with events := s.events ++
              [{ event := if s.currentEvent = [] then "message".toList
                          else s.currentEvent,
                 data := d }] }
        | none => s
      else s
    { s1 with currentEvent := [] }
  else s

/-- Split into newline-separated segments; always non-empty, the last
segment being the text after the final newline.  This is
buffer.split('\n'), whose popped last element becomes the new partial
buffer. -/
def splitNl : Str → List Str
  | [] => [[]]
  | c :: cs =>
    let r := splitNl cs
    if c = '\n' then [] :: r
    else
      match r with
      | [] => [[c]]
      | h :: t => (c :: h) :: t

/-- Processing of one received chunk (lines 119-140): append to the
partial-line buffer, split on newlines, process every complete line and
keep the trailing partial line buffered. -/
def processChunk (s : DecState) (chunk : Str) : DecState :=
  let segs := splitNl (s.buffer ++ chunk)
  let s1 := segs.dropLast.foldl processLine { s with buffer := [] }
  { s1 with buffer := segs.getLastD [] }

/-- The frame of the decoder test case:
event: text\ndata: \x7b"text":"hi"\x7d\n\n. -/
def sseFrame : Str :=
  "event: text\ndata: ".toList ++ [lbrace, dquote] ++ "text".toList ++
  [dquote, ':', dquote] ++ "hi".toList ++ [dquote, rbrace, '\n', '\n']

/- ------------------------------------------------------------------
The pipeline orchestrator: the onEvent callback installed by
handleSubmit (src/components/ChatInterface.tsx, lines 217-270).
------------------------------------------------------------------- -/

/-- The externally visible progress state (AnalysisProgress): the step
name plus the optional image counters and error message the branches
set. -/
structure Progress where
  step : Str
  image : Option Int
  totalImages : Option Int
  error : Option Str
  deriving Repr, DecidableEq

/-- Field access data.k for a string-valued payload field. -/
def jStrField (d : JVal) (k : Str) : Option Str :=
  match d with
  | JVal.jobj ps =>
    match ps.lookup k with
    | some (JPrim.jstr s) => some s
    | _ => none
  | _ => none

/-- Field access data.k for a number-valued payload field. -/
def jNumField (d : JVal) (k : Str) : Option Int :=
  match d with
  | JVal.jobj ps =>
    match ps.lookup k with
    | some (JPrim.jnum n) => some n
    | _ => none
  | _ => none

/-- The orchestrator state visible to the event handler: progress and
analyzing flags, the accumulated streaming content, the finalized
assistant messages (optional server id and content), the pending user
message marker, the TTS toggle and the speech controller. -/
structure OrchState where
  progress : Progress
  isAnalyzing : Bool
  streamingContent : Str
  messages : List (Option Str × Str)
  hasUserMessage : Bool
  ttsEnabled : Bool
  tts : TTSState
  deriving Repr, DecidableEq

/-- The branches of the onEvent callback, in source order.  `now` is
the arrival time of the event (used by the speech controller's
liveness tracking). -/
def handleStreamEvent (now : Nat) (ev : StreamEvent) (s : OrchState) : OrchState :=
  if ev.event = "start".toList then
    { s with progress := { step := "detection".toList, image := none,
                           totalImages := jNumField ev.data "total_images".toList,
                           error := none } }
  else if ev.event = "progress".toList then
    { s with progress := { step := (jStrField ev.data "step".toList).getD [],
                           image := jNumField ev.data "image".toList,
                           totalImages := jNumField ev.data "total_images".toList,
                           error := none } }
  else if ev.event = "text".toList then
    let token := (jStrField ev.data "text".toList).getD []
    let s1 := { s with streamingContent := s.streamingContent ++ token }
    if s1.ttsEnabled && token ≠ [] then { s1 with tts := speakToken now token s1.tts }
    else s1
  else if ev.event = "complete".toList then
    { s with messages := s.messages ++
               [(jStrField ev.data "message_id".toList,
                 (jStrField ev.data "hypothesis".toList).getD [])],
             streamingContent := [],
             progress := { step := "complete".toList, image := none,
                           totalImages := none, error := none },
             isAnalyzing := false,
             hasUserMessage := false,
             tts := flush now s.tts }
  else if ev.event = "error".toList then
    { s with progress := { step := "error".toList, image := none,
                           totalImages := none,
                           error := jStrField ev.data "error".toList },
             isAnalyzing := false,
             hasUserMessage := false }
  else s

/- ------------------------------------------------------------------
Concrete inputs and states used by the claim examples and witnesses.
------------------------------------------------------------------- -/

/-- Prepend a string onto the first segment of a segment list. -/
def consHead (x : Str) : List Str → List Str
  | [] => [x]
  | h :: t => (x ++ h) :: t

/-- The input of the cleanForSpeech example of the spec (the dash is an
em dash, U+2014). -/
def c4input : Str := "**Warning:** check _this_ — now".toList

/-- A decoder state with a pending event kind "text" and no output. -/
def decWithTextKind : DecState :=
  { buffer := [], currentEvent := "text".toList, events := [] }

/-- A data line whose payload is not parseable JSON. -/
def badDataLine : Str := "data: ".toList ++ [lbrace] ++ "bad".toList

/-- A controller state with an utterance in flight and pending text. -/
def speakingTTS : TTSState :=
  { initTTS with
      pendingText := "abc".toList,
      isProcessing := true,
      isSpeaking := true }

/-- A streaming controller state holding an unpunctuated fragment. -/
def fragTTS : TTSState :=
  { initTTS with
      pendingText := "trailing fragment without punctuation".toList,
      isStreamingMode := true }

/-- A streaming controller state mid-utterance whose last token is
stale (token clock at 0). -/
def staleTTS : TTSState :=
  { initTTS with
      pendingText := "More text".toList,
      isStreamingMode := true,
      isProcessing := true,
      streamActive := true,
      isSpeaking := true }

/-- An orchestrator state mid-analysis with speech in flight. -/
def orchSpeaking : OrchState :=
  { progress := { step := "detection".toList, image := none, totalImages := none, error := none },
    isAnalyzing := true,
    streamingContent := [],
    messages := [],
    hasUserMessage := true,
    ttsEnabled := true,
    tts := speakingTTS }

/-- An error stream event carrying the message "boom". -/
def errBoomEvent : StreamEvent :=
  { event := "error".toList,
    data := JVal.jobj [("error".toList, JPrim.jstr "boom".toList)] }

/-- An idle orchestrator state used by the C2 witness. -/
def orchIdle : OrchState :=
  { progress := { step := "idle".toList, image := none, totalImages := none, error := none },
    isAnalyzing := true,
    streamingContent := [],
    messages := [],
    hasUserMessage := true,
    ttsEnabled := true,
    tts := initTTS }

/-- A concrete streaming turn: tokens split mid-sentence, an utterance
completion interleaved, a trailing unpunctuated fragment. -/
def c1evs : List TTSEvent :=
  [TTSEvent.feed 0 "Hello wor".toList,
   TTSEvent.feed 10 "ld. More".toList,
   TTSEvent.utterEnd 500,
   TTSEvent.feed 600 " text".toList]

/-- A single unpunctuated token, fed and flushed. -/
def c1bad : List TTSEvent := [TTSEvent.feed 0 "hi".toList]

/-- A stopped turn carrying a stale continuation timer: a sentence is
spoken, further text arrives, the utterance completes while the stream
is live (scheduling the speak-next-sentence continuation), and then
stop() is called. -/
def c3stopped : List TTSEvent :=
  [TTSEvent.feed 0 "One.".toList,
   TTSEvent.feed 10 "Two".toList,
   TTSEvent.utterEnd 20,
   TTSEvent.stopEv]

/-- The stopped turn followed by a fresh unpunctuated token, which
feedToken itself does not dispatch. -/
def c3fed : List TTSEvent := c3stopped ++ [TTSEvent.feed 30 "Hi. More".toList]

/-- The stopped turn, the fresh token, and then the firing of the
continuation timer scheduled before stop(). -/
def c3fired : List TTSEvent := c3fed ++ [TTSEvent.timer]

/- ------------------------------------------------------------------
The streaming correspondence invariant: at every point of a turn, the
spoken log is the cleaned non-empty prefix of the sentence split of the
text fed so far, and the pending buffer is the remaining text up to a
leading whitespace run (extraction may have consumed a whitespace run
that later tokens extended).
------------------------------------------------------------------- -/

/-- Decomposition of a controller state against the fed text `G`:
`k` sentences `ss` have been extracted with remainder `rem`, the spoken
log is exactly the cleaned non-empty extracted sentences, and the
pending buffer is `rem` behind a whitespace prefix `w`. -/
def TDecomp (G : Str) (s : TTSState) (k : Nat) (ss : List Str) (rem w : Str) : Prop :=
  sentK k G = some (ss, rem) ∧ isWsStr w = true ∧
  s.spoken = (ss.map cleanTextForSpeech).filter (fun x => x ≠ []) ∧
  s.pendingText = w ++ rem

/-- Invariant of the token-feeding phase: some decomposition holds,
and outside streaming mode the remainder is blank. -/
def PreInv (G : Str) (s : TTSState) : Prop :=
  ∃ k ss rem w, TDecomp G s k ss rem w ∧
    (s.isStreamingMode = false → isWsStr rem = true)

/-- After flush the processed text ends in terminal punctuation or is
entirely blank. -/
def GoodG (G : Str) : Prop := endsTermWs G = true ∨ isWsStr G = true

/-- Invariant of the drain phase after flush: some decomposition holds,
streaming mode is off, and either an utterance is in flight or the
buffer is blank. -/
def PostInv (G : Str) (s : TTSState) : Prop :=
  (∃ k ss rem w, TDecomp G s k ss rem w) ∧
  s.isStreamingMode = false ∧
  (s.isProcessing = true ∨ jsTrim s.pendingText = [])

/- ==================================================================
Helper lemmas: characters, trimming, scanning.
================================================================== -/

theorem wsChar_of_termChar {c : Char} (h : termChar c = true) : wsChar c = false := by
  simp only [termChar, Bool.or_eq_true, decide_eq_true_eq] at h
  rcases h with (h | h) | h <;> subst h <;> decide

theorem exists_term_of_endsTermWs {l : Str} (h : endsTermWs l = true) :
    ∃ c, c ∈ l ∧ termChar c = true := by
  unfold endsTermWs at h
  rcases hd : l.reverse.dropWhile wsChar with _ | ⟨c, r⟩
  · rw [hd] at h
    exact absurd h (by simp)
  · rw [hd] at h
    refine ⟨c, ?_, h⟩
    have hsub := (List.dropWhile_sublist (l := l.reverse) wsChar).subset
    have hm : c ∈ l.reverse := hsub (by rw [hd]; exact List.mem_cons_self _ _)
    simpa using hm

theorem endsTermWs_eq_false {l : Str} (h : ∀ c ∈ l, termChar c = false) :
    endsTermWs l = false := by
  by_contra hx
  obtain ⟨c, hc, ht⟩ := exists_term_of_endsTermWs (by
    cases he : endsTermWs l
    · exact absurd he hx
    · rfl)
  rw [h c hc] at ht
  exact absurd ht (by simp)

theorem dropWhile_ne_nil_of_not_all {p : Char → Bool} {l : Str}
    (h : l.all p = false) : l.dropWhile p ≠ [] := by
  intro hn
  rw [List.dropWhile_eq_nil_iff] at hn
  rw [List.all_eq_true.mpr hn] at h
  exact absurd h (by simp)

theorem isWsStr_reverse (l : Str) : isWsStr l.reverse = isWsStr l := by
  unfold isWsStr
  cases ha : l.all wsChar
  · cases hb : l.reverse.all wsChar
    · rfl
    · rw [List.all_eq_true] at hb
      rw [List.all_eq_true.mpr (fun c hc => hb c (by simpa using hc))] at ha
      exact ha
  · rw [List.all_eq_true] at ha
    exact List.all_eq_true.mpr (fun c hc => ha c (by simpa using hc))

theorem jsTrim_eq_nil_iff {l : Str} : jsTrim l = [] ↔ isWsStr l = true := by
  constructor
  · intro h
    unfold jsTrim trimRight trimLeft at h
    have h1 : (l.dropWhile wsChar).reverse.dropWhile wsChar = [] := by
      by_contra hne
      exact hne (by simpa using congrArg List.reverse h)
    rw [List.dropWhile_eq_nil_iff] at h1
    have h2 : ∀ x ∈ l.dropWhile wsChar, wsChar x = true := by
      intro x hx
      exact h1 x (by simpa using hx)
    have h3 : ∀ x ∈ l, wsChar x = true := by
      intro x hx
      rcases List.mem_append.mp
        (by rw [List.takeWhile_append_dropWhile (p := wsChar)]; exact hx) with hx' | hx'
      · exact List.mem_takeWhile_imp hx'
      · exact h2 x hx'
    exact List.all_eq_true.mpr h3
  · intro h
    unfold jsTrim trimLeft
    have : l.dropWhile wsChar = [] :=
      List.dropWhile_eq_nil_iff.mpr (fun x hx => List.all_eq_true.mp h x hx)
    rw [this]
    rfl

theorem jsTrim_ne_nil_iff {l : Str} : jsTrim l ≠ [] ↔ isWsStr l = false := by
  rw [Ne, jsTrim_eq_nil_iff]
  cases h : isWsStr l <;> simp

theorem isWsStr_append {a b : Str} :
    isWsStr (a ++ b) = (isWsStr a && isWsStr b) := List.all_append

theorem dropWhile_append_of_ne {p : Char → Bool} {a : Str} (b : Str)
    (h : a.dropWhile p ≠ []) :
    (a ++ b).dropWhile p = a.dropWhile p ++ b := by
  rw [List.dropWhile_append]
  simp [List.isEmpty_iff, h]

theorem dropWhile_append_of_all {p : Char → Bool} {a : Str} (b : Str)
    (h : a.all p = true) :
    (a ++ b).dropWhile p = b.dropWhile p := by
  rw [List.dropWhile_append]
  have : a.dropWhile p = [] :=
    List.dropWhile_eq_nil_iff.mpr (fun x hx => List.all_eq_true.mp h x hx)
  simp [this]

theorem endsTermWs_append_right {a b : Str} (h : isWsStr b = false) :
    endsTermWs (a ++ b) = endsTermWs b := by
  have hrev : (List.reverse b).all wsChar = false := by
    have h2 := isWsStr_reverse b
    unfold isWsStr at h2
    rw [h2]
    exact h
  unfold endsTermWs
  rw [List.reverse_append]
  rw [dropWhile_append_of_ne _ (dropWhile_ne_nil_of_not_all hrev)]
  rcases hd : b.reverse.dropWhile wsChar with _ | ⟨c, r⟩
  · exact absurd hd (dropWhile_ne_nil_of_not_all hrev)
  · rfl

theorem endsTermWs_append_term {l : Str} {c : Char} (h : termChar c = true) :
    endsTermWs (l ++ [c]) = true := by
  unfold endsTermWs
  rw [List.reverse_append]
  simp only [List.reverse_cons, List.reverse_nil, List.nil_append, List.cons_append,
    List.dropWhile_cons]
  rw [wsChar_of_termChar h]
  simpa using h

theorem jsTrim_ws_append {w l : Str} (hw : isWsStr w = true) :
    jsTrim (w ++ l) = jsTrim l := by
  unfold jsTrim trimLeft
  rw [dropWhile_append_of_all _ hw]

theorem isWsStr_of_append_left {w l : Str} (h : isWsStr (w ++ l) = true) :
    isWsStr w = true := by
  rw [isWsStr_append] at h
  cases hw : isWsStr w
  · rw [hw] at h
    exact absurd h (by simp)
  · rfl

theorem isWsStr_of_append_right {w l : Str} (h : isWsStr (w ++ l) = true) :
    isWsStr l = true := by
  rw [isWsStr_append] at h
  cases hl : isWsStr l
  · rw [hl] at h
    exact absurd h (by simp)
  · rfl

theorem splitAtTerm_none_iff {l : Str} :
    splitAtTerm l = none ↔ ∀ c ∈ l, termChar c = false := by
  induction l with
  | nil => simp [splitAtTerm]
  | cons c cs ih =>
    rw [splitAtTerm]
    cases hc : termChar c
    · rcases hs : splitAtTerm cs with _ | ⟨g, r⟩
      · simp only [hc, Bool.false_eq_true, if_false, hs]
        constructor
        · intro _ x hx
          rcases List.mem_cons.mp hx with rfl | hxs
          · exact hc
          · exact ih.mp hs x hxs
        · intro _
          trivial
      · simp only [hc, Bool.false_eq_true, if_false, hs]
        constructor
        · intro h
          exact absurd h (by simp)
        · intro h
          have : splitAtTerm cs = none :=
            ih.mpr (fun x hx => h x (List.mem_cons_of_mem _ hx))
          rw [this] at hs
          exact absurd hs (by simp)
    · simp only [hc, if_true]
      constructor
      · intro h
        exact absurd h (by simp)
      · intro h
        exact absurd (h c (List.mem_cons_self _ _)) (by simp [hc])

theorem splitAtTerm_eq {l g r : Str} (h : splitAtTerm l = some (g, r)) :
    l = g ++ r ∧ ∃ g0 c, g = g0 ++ [c] ∧ termChar c = true := by
  induction l generalizing g r with
  | nil => exact absurd h (by simp [splitAtTerm])
  | cons c cs ih =>
    rw [splitAtTerm] at h
    cases hc : termChar c
    · rw [hc] at h
      simp only [Bool.false_eq_true, if_false] at h
      rcases hs : splitAtTerm cs with _ | ⟨g', r'⟩
      · rw [hs] at h
        exact absurd h (by simp)
      · rw [hs] at h
        simp only [Option.some.injEq, Prod.mk.injEq] at h
        obtain ⟨hg, hr⟩ := h
        obtain ⟨heq, g0, d, hgd, hd⟩ := ih hs
        subst hg
        subst hr
        constructor
        · rw [heq]
          simp
        · exact ⟨c :: g0, d, by rw [hgd]; simp, hd⟩
    · rw [hc] at h
      simp only [if_true, Option.some.injEq, Prod.mk.injEq] at h
      obtain ⟨hg, hr⟩ := h
      subst hg
      subst hr
      exact ⟨by simp, [], c, by simp, hc⟩

theorem splitAtTerm_some_append {l g r : Str} (t : Str)
    (h : splitAtTerm l = some (g, r)) :
    splitAtTerm (l ++ t) = some (g, r ++ t) := by
  induction l generalizing g r with
  | nil => exact absurd h (by simp [splitAtTerm])
  | cons c cs ih =>
    rw [splitAtTerm] at h
    rw [List.cons_append, splitAtTerm]
    cases hc : termChar c
    · rw [hc] at h
      simp only [Bool.false_eq_true, if_false] at h ⊢
      rcases hs : splitAtTerm cs with _ | ⟨g', r'⟩
      · rw [hs] at h
        exact absurd h (by simp)
      · rw [hs] at h
        simp only [Option.some.injEq, Prod.mk.injEq] at h
        obtain ⟨hg, hr⟩ := h
        rw [ih hs]
        simp [← hg, ← hr]
    · rw [hc] at h
      simp only [if_true, Option.some.injEq, Prod.mk.injEq] at h ⊢
      obtain ⟨hg, hr⟩ := h
      simp [← hg, ← hr]

theorem splitAtTerm_none_append {l : Str} (t : Str) (h : splitAtTerm l = none) :
    splitAtTerm (l ++ t) = (splitAtTerm t).map (fun p => (l ++ p.1, p.2)) := by
  induction l with
  | nil =>
    rcases ht : splitAtTerm t with _ | ⟨g, r⟩ <;> simp [ht]
  | cons c cs ih =>
    have hall := splitAtTerm_none_iff.mp h
    have hc : termChar c = false := hall c (List.mem_cons_self _ _)
    have hcs : splitAtTerm cs = none :=
      splitAtTerm_none_iff.mpr (fun x hx => hall x (List.mem_cons_of_mem _ hx))
    rw [List.cons_append, splitAtTerm, hc]
    simp only [Bool.false_eq_true, if_false]
    rw [ih hcs]
    rcases ht : splitAtTerm t with _ | ⟨g, r⟩ <;> simp

theorem not_term_of_isWsStr {l : Str} (h : isWsStr l = true) :
    ∀ c ∈ l, termChar c = false := by
  intro c hc
  cases ht : termChar c
  · rfl
  · have hw := List.all_eq_true.mp h c hc
    rw [wsChar_of_termChar ht] at hw
    exact absurd hw (by simp)

theorem extract_none_iff {l : Str} :
    extract l = none ↔ ∀ c ∈ l, termChar c = false := by
  unfold extract
  rcases hs : splitAtTerm l with _ | ⟨g, r⟩
  · exact iff_of_true rfl (splitAtTerm_none_iff.mp hs)
  · exact iff_of_false (by simp)
      (fun hall => by rw [splitAtTerm_none_iff.mpr hall] at hs; cases hs)

theorem extract_isWs_none {l : Str} (h : isWsStr l = true) : extract l = none :=
  extract_none_iff.mpr (not_term_of_isWsStr h)

theorem extract_some_append {l s r : Str} (t : Str) (h : extract l = some (s, r)) :
    extract (l ++ t) = some (s, if r = [] then t.dropWhile wsChar else r ++ t) := by
  unfold extract at h ⊢
  rcases hs : splitAtTerm l with _ | ⟨g, rr⟩
  · rw [hs] at h
    cases h
  · rw [hs] at h
    simp only [Option.some.injEq, Prod.mk.injEq] at h
    obtain ⟨hg, hr⟩ := h
    rw [splitAtTerm_some_append t hs]
    simp only [Option.some.injEq, Prod.mk.injEq]
    refine ⟨hg, ?_⟩
    by_cases hrnil : r = []
    · rw [if_pos hrnil]
      apply dropWhile_append_of_all
      apply List.all_eq_true.mpr
      intro x hx
      by_contra hxp
      have : rr.dropWhile wsChar ≠ [] := by
        intro hnil
        rw [List.dropWhile_eq_nil_iff] at hnil
        exact hxp (hnil x hx)
      rw [hr] at this
      exact this hrnil
    · rw [if_neg hrnil, ← hr]
      apply dropWhile_append_of_ne
      rw [hr]
      exact hrnil

theorem extract_ws_prefix {w l : Str} (hw : isWsStr w = true) :
    extract (w ++ l) = extract l := by
  unfold extract
  have hwnone : splitAtTerm w = none :=
    splitAtTerm_none_iff.mpr (not_term_of_isWsStr hw)
  rw [splitAtTerm_none_append l hwnone]
  rcases hs : splitAtTerm l with _ | ⟨g, r⟩
  · rfl
  · simp [jsTrim_ws_append hw]

theorem extract_length {l s r : Str} (h : extract l = some (s, r)) :
    r.length < l.length := by
  unfold extract at h
  rcases hs : splitAtTerm l with _ | ⟨g, rr⟩
  · rw [hs] at h
    cases h
  · rw [hs] at h
    simp only [Option.some.injEq, Prod.mk.injEq] at h
    obtain ⟨hg, hr⟩ := h
    obtain ⟨heq, g0, c, hgc⟩ := splitAtTerm_eq hs
    have h1 : r.length ≤ rr.length := by
      rw [← hr]
      exact (List.dropWhile_sublist _).length_le
    have h2 : rr.length < l.length := by
      rw [heq, List.length_append, hgc.1]
      simp
    omega

theorem extract_decomp {l s r : Str} (h : extract l = some (s, r)) :
    ∃ pre c wmid, l = pre ++ [c] ++ wmid ++ r ∧ termChar c = true ∧
      isWsStr wmid = true := by
  unfold extract at h
  rcases hs : splitAtTerm l with _ | ⟨g, rr⟩
  · rw [hs] at h
    cases h
  · rw [hs] at h
    simp only [Option.some.injEq, Prod.mk.injEq] at h
    obtain ⟨hg, hr⟩ := h
    obtain ⟨heq, g0, c, hgc, hc⟩ := splitAtTerm_eq hs
    refine ⟨g0, c, rr.takeWhile wsChar, ?_, hc, ?_⟩
    · rw [heq, hgc, ← hr]
      conv_lhs => rw [← List.takeWhile_append_dropWhile (p := wsChar) (l := rr)]
      simp [List.append_assoc]
    · apply List.all_eq_true.mpr
      intro x hx
      exact List.mem_takeWhile_imp hx

theorem endsTermWs_sandwich {u v : Str} {c : Char} (hc : termChar c = true)
    (hv : isWsStr v = true) : endsTermWs (u ++ [c] ++ v) = true := by
  unfold endsTermWs
  have hvrev : (List.reverse v).all wsChar = true := by
    have h2 := isWsStr_reverse v
    unfold isWsStr at h2
    rw [h2]
    exact hv
  have hrw : (u ++ [c] ++ v).reverse = v.reverse ++ (c :: u.reverse) := by
    simp
  rw [hrw, dropWhile_append_of_all _ hvrev, List.dropWhile_cons, wsChar_of_termChar hc]
  simpa using hc

theorem not_isWsStr_of_endsTermWs {l : Str} (h : endsTermWs l = true) :
    isWsStr l = false := by
  obtain ⟨c, hc, ht⟩ := exists_term_of_endsTermWs h
  cases hw : isWsStr l
  · rfl
  · rw [not_term_of_isWsStr hw c hc] at ht
    exact absurd ht (by simp)

theorem sentK_append {k : Nat} {G rem : Str} {ss : List Str} (t : Str)
    (h : sentK k G = some (ss, rem)) :
    ∃ w2 rem2, isWsStr w2 = true ∧ sentK k (G ++ t) = some (ss, rem2) ∧
      rem ++ t = w2 ++ rem2 := by
  induction k generalizing G ss rem with
  | zero =>
    simp only [sentK, Option.some.injEq, Prod.mk.injEq] at h
    obtain ⟨h1, h2⟩ := h
    exact ⟨[], G ++ t, rfl, by simp only [sentK, ← h1], by rw [← h2]; rfl⟩
  | succ k ih =>
    simp only [sentK] at h
    rcases he : extract G with _ | ⟨s1, r⟩
    · rw [he] at h
      cases h
    · rw [he] at h
      have h2 : (match sentK k r with
          | some (ss, rem) => some (s1 :: ss, rem)
          | none => none) = some (ss, rem) := h
      clear h
      rcases hk : sentK k r with _ | ⟨p⟩
      · rw [hk] at h2
        cases h2
      · obtain ⟨ss', rem'⟩ := p
        rw [hk] at h2
        simp only [Option.some.injEq, Prod.mk.injEq] at h2
        obtain ⟨hss, hrem⟩ := h2
        by_cases hr : r = []
        · subst hr
          cases k with
          | zero =>
            simp only [sentK, Option.some.injEq, Prod.mk.injEq] at hk
            obtain ⟨hk1, hk2⟩ := hk
            have hext := extract_some_append t he
            rw [if_pos rfl] at hext
            refine ⟨t.takeWhile wsChar, t.dropWhile wsChar, ?_, ?_, ?_⟩
            · exact List.all_eq_true.mpr (fun x hx => List.mem_takeWhile_imp hx)
            · simp only [sentK, hext, ← hss, ← hk1]
            · rw [← hrem, ← hk2]
              simp [List.takeWhile_append_dropWhile]
          | succ k' =>
            simp only [sentK] at hk
            have hnone : extract ([] : Str) = none := extract_isWs_none rfl
            rw [hnone] at hk
            cases hk
        · have hext := extract_some_append t he
          rw [if_neg hr] at hext
          obtain ⟨w2, rem2, hw2, hk2, heq2⟩ := ih hk
          refine ⟨w2, rem2, hw2, ?_, by rw [← hrem]; exact heq2⟩
          simp only [sentK, hext, hk2, ← hss]

theorem sentK_succ {k : Nat} {G rem s1 r1 : Str} {ss : List Str}
    (h : sentK k G = some (ss, rem)) (he : extract rem = some (s1, r1)) :
    sentK (k + 1) G = some (ss ++ [s1], r1) := by
  induction k generalizing G ss rem with
  | zero =>
    simp only [sentK, Option.some.injEq, Prod.mk.injEq] at h
    obtain ⟨h1, h2⟩ := h
    simp only [sentK, h2, he, ← h1]
    simp
  | succ k ih =>
    simp only [sentK] at h
    rcases hg : extract G with _ | ⟨sg, rg⟩
    · rw [hg] at h
      cases h
    · rw [hg] at h
      have h2 : (match sentK k rg with
          | some (ss, rem) => some (sg :: ss, rem)
          | none => none) = some (ss, rem) := h
      clear h
      rcases hk : sentK k rg with _ | ⟨p⟩
      · rw [hk] at h2
        cases h2
      · obtain ⟨ss', rem'⟩ := p
        rw [hk] at h2
        simp only [Option.some.injEq, Prod.mk.injEq] at h2
        obtain ⟨hss, hrem⟩ := h2
        have h9 : sentK k rg = some (ss', rem) := by rw [hk, hrem]
        have step := ih h9 he
        have unf : sentK (k + 1 + 1) G =
            (match extract G with
             | none => none
             | some (s, r) =>
               match sentK (k + 1) r with
               | some (ss, rem) => some (s :: ss, rem)
               | none => none) := rfl
        rw [unf, hg]
        have defeq : (match some (sg, rg) with
             | none => (none : Option (List Str × Str))
             | some (s, r) =>
               match sentK (k + 1) r with
               | some (ss, rem) => some (s :: ss, rem)
               | none => none) =
            (match sentK (k + 1) rg with
             | some (ss, rem) => some (sg :: ss, rem)
             | none => none) := rfl
        rw [defeq, step, ← hss]
        simp

theorem sentK_decomp {k : Nat} {G rem : Str} {ss : List Str}
    (h : sentK k G = some (ss, rem)) :
    ∃ pre, G = pre ++ rem := by
  induction k generalizing G ss rem with
  | zero =>
    simp only [sentK, Option.some.injEq, Prod.mk.injEq] at h
    exact ⟨[], by rw [← h.2]; rfl⟩
  | succ k ih =>
    simp only [sentK] at h
    rcases he : extract G with _ | ⟨s1, r⟩
    · rw [he] at h
      cases h
    · rw [he] at h
      have h2 : (match sentK k r with
          | some (ss, rem) => some (s1 :: ss, rem)
          | none => none) = some (ss, rem) := h
      clear h
      rcases hk : sentK k r with _ | ⟨p⟩
      · rw [hk] at h2
        cases h2
      · obtain ⟨ss', rem'⟩ := p
        rw [hk] at h2
        simp only [Option.some.injEq, Prod.mk.injEq] at h2
        obtain ⟨_, hrem⟩ := h2
        obtain ⟨pre1, c, w, hG, _, _⟩ := extract_decomp he
        have h9 : sentK k r = some (ss', rem) := by rw [hk, hrem]
        obtain ⟨pre2, hpre2⟩ := ih h9
        refine ⟨pre1 ++ [c] ++ w ++ pre2, ?_⟩
        rw [hG, hpre2]
        simp [List.append_assoc]

theorem sentK_ends {k : Nat} {G rem : Str} {ss : List Str}
    (h : sentK k G = some (ss, rem))
    (hk : 1 ≤ k) (hrem : isWsStr rem = true) : endsTermWs G = true := by
  induction k generalizing G ss rem with
  | zero => omega
  | succ k ih =>
    simp only [sentK] at h
    rcases he : extract G with _ | ⟨s1, r⟩
    · rw [he] at h
      cases h
    · rw [he] at h
      have h2x : (match sentK k r with
          | some (ss, rem) => some (s1 :: ss, rem)
          | none => none) = some (ss, rem) := h
      clear h
      rcases hks : sentK k r with _ | ⟨p⟩
      · rw [hks] at h2x
        cases h2x
      · obtain ⟨ss', rem'⟩ := p
        rw [hks] at h2x
        simp only [Option.some.injEq, Prod.mk.injEq] at h2x
        obtain ⟨_, hrem'⟩ := h2x
        obtain ⟨pre, c, w, hG, hc, hw⟩ := extract_decomp he
        cases k with
        | zero =>
          simp only [sentK, Option.some.injEq, Prod.mk.injEq] at hks
          have hrw : isWsStr r = true := by
            rw [hks.2, hrem']
            exact hrem
          rw [hG]
          have h2 : endsTermWs (pre ++ [c] ++ (w ++ r)) = true :=
            endsTermWs_sandwich hc (by rw [isWsStr_append, hw, hrw]; rfl)
          have h3 : pre ++ [c] ++ w ++ r = pre ++ [c] ++ (w ++ r) := by
            simp [List.append_assoc]
          rw [h3]
          exact h2
        | succ k' =>
          have h9 : sentK (k' + 1) r = some (ss', rem) := by rw [hks, hrem']
          have hr := ih h9 (by omega) hrem
          rw [hG, endsTermWs_append_right (not_isWsStr_of_endsTermWs hr)]
          exact hr

theorem splitRemF_stable :
    ∀ (n : Nat) (l : Str), l.length ≤ n →
      ∀ f g : Nat, l.length < f → l.length < g → splitRemF f l = splitRemF g l := by
  intro n
  induction n with
  | zero =>
    intro l hl f g hf hg
    have hnil : l = [] := List.eq_nil_of_length_eq_zero (by omega)
    subst hnil
    cases f with
    | zero => omega
    | succ f' =>
      cases g with
      | zero => omega
      | succ g' =>
        have hnone : extract ([] : Str) = none := extract_isWs_none rfl
        simp only [splitRemF, hnone]
  | succ n ihn =>
    intro l hl f g hf hg
    cases f with
    | zero => omega
    | succ f' =>
      cases g with
      | zero => omega
      | succ g' =>
        simp only [splitRemF]
        rcases he : extract l with _ | ⟨s, r⟩
        · rfl
        · have hr := extract_length he
          show (s :: (splitRemF f' r).1, (splitRemF f' r).2) =
            (s :: (splitRemF g' r).1, (splitRemF g' r).2)
          rw [ihn r (by omega) f' g' (by omega) (by omega)]

theorem splitRem_unfold {l : Str} :
    splitRem l = match extract l with
      | none => ([], l)
      | some (s, r) => (s :: (splitRem r).1, (splitRem r).2) := by
  unfold splitRem
  rcases he : extract l with _ | ⟨s, r⟩
  · simp only [splitRemF, he]
  · have hr := extract_length he
    have hst := splitRemF_stable r.length r (le_refl _) l.length (r.length + 1) hr
      (by omega)
    simp only [splitRemF, he, hst]

theorem sentK_splitRem {k : Nat} {G rem : Str} {ss : List Str}
    (h : sentK k G = some (ss, rem)) :
    splitRem G = (ss ++ (splitRem rem).1, (splitRem rem).2) := by
  induction k generalizing G ss rem with
  | zero =>
    simp only [sentK, Option.some.injEq, Prod.mk.injEq] at h
    rw [← h.1, ← h.2]
    simp
  | succ k ih =>
    simp only [sentK] at h
    rcases he : extract G with _ | ⟨s1, r⟩
    · rw [he] at h
      cases h
    · rw [he] at h
      have h2 : (match sentK k r with
          | some (ss, rem) => some (s1 :: ss, rem)
          | none => none) = some (ss, rem) := h
      clear h
      rcases hk : sentK k r with _ | ⟨p⟩
      · rw [hk] at h2
        cases h2
      · obtain ⟨ss', rem'⟩ := p
        rw [hk] at h2
        simp only [Option.some.injEq, Prod.mk.injEq] at h2
        obtain ⟨hss, hrem⟩ := h2
        rw [splitRem_unfold, he]
        show (s1 :: (splitRem r).1, (splitRem r).2) =
          (ss ++ (splitRem rem).1, (splitRem rem).2)
        have h9 : sentK k r = some (ss', rem) := by rw [hk, hrem]
        rw [ih h9, ← hss]
        simp

theorem sentencesOf_of_ws_rem {k : Nat} {G rem : Str} {ss : List Str}
    (h : sentK k G = some (ss, rem)) (hrem : isWsStr rem = true) :
    sentencesOf G = ss := by
  have h1 := sentK_splitRem h
  have h2 : splitRem rem = ([], rem) := by
    rw [splitRem_unfold, extract_isWs_none hrem]
  unfold sentencesOf
  rw [h1, h2]
  simp

/- ==================================================================
Claim theorems.
================================================================== -/

/-- C3 (counterexample): stop() does not invalidate a previously
scheduled continuation.  In a reachable turn the continuation timer is
scheduled (an utterance completes with text pending while the stream is
live) and stop() is then called: the timer is still pending.  The fresh
token "Hi. More" then arrives; feedToken itself dispatches nothing (the
buffer does not end in terminal punctuation), yet when the stale timer
fires it starts the utterance "Hi." — an utterance started by a
continuation scheduled before stop(). -/
theorem c3_counterexample :
    (runEvents c3stopped initTTS).timerPending = true ∧
    (runEvents c3fed initTTS).isProcessing = false ∧
    (runEvents c3fed initTTS).spoken = ["One.".toList] ∧
    (runEvents c3fired initTTS).isProcessing = true ∧
    (runEvents c3fired initTTS).spoken = ["One.".toList, "Hi.".toList] := by
  decide

/-- C3 (amended): stop() is idempotent and immediately halts any
in-flight utterance: afterwards nothing is processing or audible and
the buffer is empty, and the engine callbacks are no-ops on the stopped
state.  It does not invalidate a pending continuation timer (the source
never clears the timeout), but the timer firing on the stopped state
itself starts no utterance, since the buffer is empty; a stale timer
can only start speech after fresh input has been fed. -/
theorem c3_amended (s : TTSState) (now : Nat) :
    ttsStop (ttsStop s) = ttsStop s ∧
    (ttsStop s).isProcessing = false ∧
    (ttsStop s).isSpeaking = false ∧
    (ttsStop s).pendingText = [] ∧
    (ttsStop s).timerPending = s.timerPending ∧
    (timerFire (ttsStop s)).spoken = s.spoken ∧
    (timerFire (ttsStop s)).isProcessing = false ∧
    (timerFire (ttsStop s)).isSpeaking = false ∧
    onUtteranceEnd now (ttsStop s) = ttsStop s ∧
    onUtteranceError now (ttsStop s) = ttsStop s := by
  have htf : (timerFire (ttsStop s)).spoken = s.spoken ∧
      (timerFire (ttsStop s)).isProcessing = false ∧
      (timerFire (ttsStop s)).isSpeaking = false := by
    unfold timerFire ttsStop processText processTextF
    cases s.timerPending <;> simp
  exact ⟨rfl, rfl, rfl, rfl, rfl, htf.1, htf.2.1, htf.2.2, rfl, rfl⟩

/-- C4 (counterexample): cleanTextForSpeech on the spec's example input
does not return the claimed "Warning: check this now": the em dash is
neither in the removed symbol class nor a hyphen/underscore run, so it
is not removed. -/
theorem c4_counterexample :
    cleanTextForSpeech c4input ≠ "Warning: check this now".toList := by
  decide

/-- C4 (amended): cleanTextForSpeech "**Warning:** check _this_ — now"
returns "Warning: check this — now": the emphasis markup and
underscores are removed and whitespace is collapsed, but the em dash is
preserved (only runs of two or more ASCII hyphens/underscores collapse
to a space, and the em dash is not in the removed symbol class). -/
theorem c4_amended :
    cleanTextForSpeech c4input = "Warning: check this — now".toList := by
  decide

/-- C9: immediately after stop() the pending buffer is empty and the
controller idle (not streaming, not speaking, not processing), and a
subsequent feedToken "Hi." starts a fresh utterance whose text is
exactly "Hi." — no text from before the stop leaks into later speech —
leaving the buffer empty again. -/
theorem stop_then_fresh_token (s : TTSState) (now : Nat) :
    (ttsStop s).pendingText = [] ∧
    (ttsStop s).isStreamingMode = false ∧
    (ttsStop s).isSpeaking = false ∧
    (ttsStop s).isProcessing = false ∧
    (speakToken now "Hi.".toList (ttsStop s)).spoken = s.spoken ++ ["Hi.".toList] ∧
    (speakToken now "Hi.".toList (ttsStop s)).pendingText = [] := by
  refine ⟨rfl, rfl, rfl, rfl, ?_, ?_⟩ <;> rfl

/-- C8: streamActive is reported only while time-since-last-token is
below the 250 ms pause threshold; and when an utterance completes in
streaming mode with a non-blank buffer and a stale token clock, the
controller does not start the next utterance: it only clears the
processing flag and goes silent, retaining the pending buffer, the
spoken log and the streaming mode, and scheduling no continuation. -/
theorem stream_pause_goes_silent (now : Nat) (s : TTSState) :
    (isStreamActive now s = true → now - s.lastTokenTime < STREAM_PAUSE_THRESHOLD) ∧
    (s.isStreamingMode = true → s.isProcessing = true →
      STREAM_PAUSE_THRESHOLD ≤ now - s.lastTokenTime →
      jsTrim s.pendingText ≠ [] →
      onUtteranceEnd now s = { s with isProcessing := false, isSpeaking := false } ∧
      isStreamActive now s = false) := by
  constructor
  · intro h
    unfold isStreamActive at h
    simp only [Bool.and_eq_true, decide_eq_true_eq] at h
    exact h.2
  · intro hm hp hth hne
    have hlt : ¬(now - s.lastTokenTime < STREAM_PAUSE_THRESHOLD) := by omega
    have hact : isStreamActive now s = false := by
      unfold isStreamActive
      simp [hlt]
    refine ⟨?_, hact⟩
    unfold onUtteranceEnd
    rw [hp]
    simp only [Bool.not_true, Bool.false_eq_true, if_false]
    simp only [hne, hm, Bool.not_true, Bool.false_or, ne_eq,
      not_false_eq_true, if_true]
    have hnc : ¬ isStreamActive now
        { s with isProcessing := false, isStreamingMode := true } = true := by
      intro hx
      have hx2 : isStreamActive now s = true := hx
      rw [hact] at hx2
      cases hx2
    rw [if_neg hnc]

/-- Re-expression of the processText fuel so that the top-level
equation can be unfolded once when the buffer is non-empty. -/
theorem processText_eq (s : TTSState) (h : s.pendingText ≠ []) :
    processText s = processTextF (s.pendingText.length - 1 + 1) s := by
  unfold processText
  congr 1
  have : s.pendingText.length ≠ 0 := by
    intro h0
    exact h (List.eq_nil_of_length_eq_zero h0)
  omega

/-- C8 witness: at time 1000 with the last token at time 0, the
completion check goes silent and keeps the buffer. -/
theorem stream_pause_goes_silent_witness :
    onUtteranceEnd 1000 staleTTS =
      { staleTTS with isProcessing := false, isSpeaking := false } ∧
    isStreamActive 1000 staleTTS = false :=
  (stream_pause_goes_silent 1000 staleTTS).2 rfl rfl (by decide) (by decide)

theorem splitAtTerm_no_term_append {l : Str} {c : Char} (hc : termChar c = true)
    (h : ∀ x ∈ l, termChar x = false) :
    splitAtTerm (l ++ [c]) = some (l ++ [c], []) := by
  have hl : splitAtTerm l = none := splitAtTerm_none_iff.mpr h
  rw [splitAtTerm_none_append _ hl]
  simp [splitAtTerm, hc]

theorem extract_no_term_append {l : Str} (h : ∀ x ∈ l, termChar x = false) :
    extract (l ++ ['.']) = some (jsTrim (l ++ ['.']), []) := by
  unfold extract
  rw [splitAtTerm_no_term_append (by decide) h]
  rfl

/-- C7: flush() on an idle controller whose non-blank pending buffer
contains no sentence-terminal punctuation speaks the entire fragment as
a single utterance: flush leaves streaming mode, appends a terminal
period, and the dispatch empties the buffer, handing the one cleaned
fragment to the engine (provided the fragment does not clean to the
empty string, in which case nothing is speakable). -/
theorem flush_speaks_unpunctuated_fragment (now : Nat) (s : TTSState)
    (hproc : s.isProcessing = false)
    (hne : jsTrim s.pendingText ≠ [])
    (hterm : ∀ c ∈ s.pendingText, termChar c = false)
    (hclean : cleanTextForSpeech (jsTrim (s.pendingText ++ ['.'])) ≠ []) :
    (flush now s).spoken =
      s.spoken ++ [cleanTextForSpeech (jsTrim (s.pendingText ++ ['.']))] ∧
    (flush now s).pendingText = [] ∧
    (flush now s).isProcessing = true ∧
    (flush now s).isSpeaking = true ∧
    (flush now s).isStreamingMode = false := by
  have hends : endsTermWs s.pendingText = false := endsTermWs_eq_false hterm
  have hdotne : jsTrim (s.pendingText ++ ['.']) ≠ [] := by
    rw [jsTrim_ne_nil_iff, isWsStr_append]
    have : isWsStr (['.'] : Str) = false := by decide
    rw [this]
    simp
  have hext := extract_no_term_append hterm
  have hpne : s.pendingText ++ ['.'] ≠ [] := by simp
  unfold flush
  simp only [hne, hends, Bool.not_false, Bool.and_true, ne_eq,
    not_false_eq_true, decide_True, if_true, hproc, Bool.not_false]
  rw [processText_eq _ (by simp)]
  simp only [processTextF, hproc, decide_True, Bool.or_self, hdotne,
    ne_eq, not_false_eq_true, if_true, Bool.false_eq_true, if_false]
  rw [hext]
  simp [hclean]

/-- C7 witness: flushing the spec's example fragment speaks it whole,
with the appended terminal period, and empties the buffer. -/
theorem flush_speaks_unpunctuated_fragment_witness :
    (flush 5 fragTTS).spoken =
      fragTTS.spoken ++ [cleanTextForSpeech (jsTrim (fragTTS.pendingText ++ ['.']))] ∧
    (flush 5 fragTTS).pendingText = [] ∧
    (flush 5 fragTTS).isProcessing = true ∧
    (flush 5 fragTTS).isSpeaking = true ∧
    (flush 5 fragTTS).isStreamingMode = false :=
  flush_speaks_unpunctuated_fragment 5 fragTTS (by decide) (by decide)
    (by decide) (by decide)

/- ==================================================================
Decoder lemmas: chunk splitting composes, so the decoder is insensitive
to where the byte stream is cut into chunks.
================================================================== -/

theorem getLastD_default_irrel {α : Type _} {v : List α} (h : v ≠ []) (a b : α) :
    v.getLastD a = v.getLastD b := by
  cases v with
  | nil => exact absurd rfl h
  | cons y ys => rw [List.getLastD_cons, List.getLastD_cons]

theorem getLastD_append_right {α : Type _} {v : List α} (h : v ≠ []) :
    ∀ (u : List α) (d : α), (u ++ v).getLastD d = v.getLastD d := by
  intro u
  induction u with
  | nil =>
    intro d
    rfl
  | cons x xs ih =>
    intro d
    rw [List.cons_append, List.getLastD_cons, ih x]
    exact getLastD_default_irrel h x d

theorem splitNl_ne_nil (l : Str) : splitNl l ≠ [] := by
  induction l with
  | nil => simp [splitNl]
  | cons c cs ih =>
    simp only [splitNl]
    by_cases hc : c = '\n'
    · simp [hc]
    · simp only [hc, if_false]
      rcases hs : splitNl cs with _ | ⟨h, t⟩
      · simp
      · simp

theorem splitNl_lastD_no_nl (l : Str) : ∀ c ∈ (splitNl l).getLastD [], c ≠ '\n' := by
  induction l with
  | nil =>
    intro c hc
    simp [splitNl] at hc
  | cons c cs ih =>
    simp only [splitNl]
    by_cases hc : c = '\n'
    · simp only [hc, if_true]
      rw [List.getLastD_cons]
      intro x hx
      rcases hs : splitNl cs with _ | ⟨h, t⟩
      · exact absurd hs (splitNl_ne_nil cs)
      · rw [hs] at hx
        rw [getLastD_default_irrel (by simp) [] ([] : Str)] at hx
        · exact ih x (by rw [hs]; exact hx)
    · simp only [hc, if_false]
      rcases hs : splitNl cs with _ | ⟨h, t⟩
      · exact absurd hs (splitNl_ne_nil cs)
      · cases t with
        | nil =>
          simp only [List.getLastD_cons, List.getLastD_nil]
          intro x hx
          rcases List.mem_cons.mp hx with rfl | hxs
          · exact hc
          · exact ih x (by rw [hs]; simpa using hxs)
        | cons t1 ts =>
          rw [List.getLastD_cons]
          intro x hx
          apply ih x
          rw [hs, List.getLastD_cons]
          rwa [getLastD_default_irrel (by simp) (c :: h) t1] at hx

theorem splitNl_of_no_nl {l : Str} (h : ∀ c ∈ l, c ≠ '\n') : splitNl l = [l] := by
  induction l with
  | nil => rfl
  | cons c cs ih =>
    simp only [splitNl]
    have hc : ¬ c = '\n' := h c (List.mem_cons_self _ _)
    simp only [hc, if_false]
    rw [ih (fun x hx => h x (List.mem_cons_of_mem _ hx))]

theorem splitNl_append (a b : Str) :
    splitNl (a ++ b) =
      (splitNl a).dropLast ++ consHead ((splitNl a).getLastD []) (splitNl b) := by
  induction a with
  | nil =>
    simp only [List.nil_append, splitNl, List.dropLast_single, List.getLastD_nil]
    rcases hb : splitNl b with _ | ⟨h, t⟩
    · exact absurd hb (splitNl_ne_nil b)
    · simp [consHead]
  | cons c cs ih =>
    rw [List.cons_append]
    simp only [splitNl]
    by_cases hc : c = '\n'
    · simp only [hc, if_true, ih]
      have hne := splitNl_ne_nil cs
      rw [List.dropLast_cons_of_ne_nil hne, List.getLastD_cons, List.cons_append]
    · simp only [hc, if_false]
      rcases hs : splitNl cs with _ | ⟨h, t⟩
      · exact absurd hs (splitNl_ne_nil cs)
      · rw [ih, hs]
        cases t with
        | nil =>
          rcases hb : splitNl b with _ | ⟨hb1, tb⟩
          · exact absurd hb (splitNl_ne_nil b)
          · simp [consHead]
        | cons t1 ts =>
          have htne : (t1 :: ts : List Str) ≠ [] := by simp
          simp only [List.dropLast_cons_of_ne_nil htne, List.getLastD_cons,
            List.cons_append]

theorem processLine_buffer (s : DecState) (l : Str) :
    (processLine s l).buffer = s.buffer := by
  unfold processLine
  dsimp only
  by_cases h1 : "event:".toList.isPrefixOf (jsTrim l) = true
  · rw [if_pos h1]
  · rw [if_neg h1]
    by_cases h2 : "data:".toList.isPrefixOf (jsTrim l) = true
    · rw [if_pos h2]
      by_cases h3 : jsTrim ((jsTrim l).drop 5) ≠ []
      · rw [if_pos h3]
        rcases hj : jsonParse (jsTrim ((jsTrim l).drop 5)) with _ | d
        · rfl
        · rfl
      · rw [if_neg h3]
    · rw [if_neg h2]

theorem foldl_processLine_buffer (ls : List Str) (s0 : DecState) :
    (ls.foldl processLine s0).buffer = s0.buffer := by
  induction ls generalizing s0 with
  | nil => rfl
  | cons x xs ih => rw [List.foldl_cons, ih, processLine_buffer]

theorem decState_buffer_eta (x : DecState) (h : x.buffer = []) :
    ({ x with buffer := ([] : Str) } : DecState) = x := by
  cases x
  simp_all

/-- Decoding is insensitive to chunk boundaries: feeding two chunks in
sequence is the same as feeding their concatenation. -/
theorem processChunk_append (s : DecState) (a b : Str) :
    processChunk (processChunk s a) b = processChunk s (a ++ b) := by
  have hlast := splitNl_lastD_no_nl (s.buffer ++ a)
  have hsplitA : splitNl (s.buffer ++ (a ++ b)) =
      (splitNl (s.buffer ++ a)).dropLast ++
        splitNl ((splitNl (s.buffer ++ a)).getLastD [] ++ b) := by
    rw [← List.append_assoc, splitNl_append (s.buffer ++ a) b]
    congr 1
    rw [splitNl_append _ b, splitNl_of_no_nl hlast]
    simp [consHead]
  unfold processChunk
  simp only
  rw [hsplitA, List.dropLast_append_of_ne_nil _ (splitNl_ne_nil _), List.foldl_append,
      getLastD_append_right (splitNl_ne_nil _)]
  have hbuf : ((splitNl (s.buffer ++ a)).dropLast.foldl processLine
      { s with buffer := ([] : Str) }).buffer = [] := foldl_processLine_buffer _ _
  rw [decState_buffer_eta _ hbuf]

/-- C5: the Frame Decoder buffers partial lines across chunk
boundaries: however the frame
event: text\ndata: \x7b"text":"hi"\x7d\n\n is split into two chunks
(in particular breaking mid-line), processing the two chunks emits
exactly one StreamEvent of kind "text" with payload text = "hi". -/
theorem frame_decoder_split_chunks (c1 c2 : Str) (h : c1 ++ c2 = sseFrame) :
    (processChunk (processChunk initDec c1) c2).events =
      [{ event := "text".toList,
         data := JVal.jobj [("text".toList, JPrim.jstr "hi".toList)] }] := by
  rw [processChunk_append, h]
  decide

/-- C5 witness: a concrete mid-line split of the frame. -/
theorem frame_decoder_split_chunks_witness :
    (sseFrame.take 15 ++ sseFrame.drop 15 = sseFrame) ∧
    (processChunk (processChunk initDec (sseFrame.take 15)) (sseFrame.drop 15)).events =
      [{ event := "text".toList,
         data := JVal.jobj [("text".toList, JPrim.jstr "hi".toList)] }] :=
  ⟨by decide, frame_decoder_split_chunks (sseFrame.take 15) (sseFrame.drop 15) (by decide)⟩

theorem data_line_not_event_line {t : Str}
    (h : "data:".toList.isPrefixOf t = true) :
    "event:".toList.isPrefixOf t = false := by
  cases t with
  | nil => simp [List.isPrefixOf] at h
  | cons c cs =>
    simp only [List.isPrefixOf] at h ⊢
    have hc : 'd' = c := by
      cases hdc : ('d' == c)
      · rw [hdc] at h
        simp at h
      · exact eq_of_beq hdc
    subst hc
    rw [show ('e' == 'd') = false by decide]
    simp

/-- C6: a data line whose payload fails to parse is silently dropped:
no event is emitted, the only state change is the pending-kind reset,
the stream is not failed, and decoding of the following lines proceeds
exactly as it would from the reset state. -/
theorem malformed_data_line_dropped (s : DecState) (line : Str) (rest : List Str)
    (hdata : "data:".toList.isPrefixOf (jsTrim line) = true)
    (hbad : jsonParse (jsTrim ((jsTrim line).drop 5)) = none) :
    processLine s line = { s with currentEvent := [] } ∧
    (processLine s line).events = s.events ∧
    (line :: rest).foldl processLine s =
      rest.foldl processLine { s with currentEvent := [] } := by
  have h1 : processLine s line = { s with currentEvent := [] } := by
    unfold processLine
    dsimp only
    rw [data_line_not_event_line hdata]
    simp only [Bool.false_eq_true, if_false]
    rw [if_pos hdata]
    simp only [hbad, ite_self]
  exact ⟨h1, by rw [h1], by rw [List.foldl_cons, h1]⟩

/-- C6 witness: a concrete malformed payload, with a pending kind and a
following well-formed frame that still decodes. -/
theorem malformed_data_line_dropped_witness :
    processLine decWithTextKind badDataLine =
      { decWithTextKind with currentEvent := [] } ∧
    (processLine decWithTextKind badDataLine).events = decWithTextKind.events ∧
    (badDataLine :: ["data: 7".toList]).foldl processLine decWithTextKind =
      ["data: 7".toList].foldl processLine
        { decWithTextKind with currentEvent := [] } :=
  malformed_data_line_dropped decWithTextKind badDataLine ["data: 7".toList]
    (by decide) (by decide)

/-- C10: processing any data line — even one whose payload is empty or
unparseable, emitting nothing — resets the pending event kind, so a
following data line carrying a parseable payload and not preceded by
its own event line is emitted with the default kind "message",
whatever kind an earlier frame had declared. -/
theorem data_line_resets_event_kind (s : DecState) (l1 l2 : Str) (d : JVal)
    (h1 : "data:".toList.isPrefixOf (jsTrim l1) = true)
    (h2 : "data:".toList.isPrefixOf (jsTrim l2) = true)
    (hne : jsTrim ((jsTrim l2).drop 5) ≠ [])
    (hd : jsonParse (jsTrim ((jsTrim l2).drop 5)) = some d) :
    (processLine s l1).currentEvent = [] ∧
    (processLine (processLine s l1) l2).events =
      (processLine s l1).events ++ [{ event := "message".toList, data := d }] := by
  have hreset : ∀ t : DecState, (processLine t l1).currentEvent = [] := by
    intro t
    unfold processLine
    dsimp only
    rw [data_line_not_event_line h1]
    simp only [Bool.false_eq_true, if_false, h1, if_true]
  refine ⟨hreset s, ?_⟩
  have key : ∀ u : DecState, u.currentEvent = [] →
      (processLine u l2).events =
        u.events ++ [{ event := "message".toList, data := d }] := by
    intro u hu
    unfold processLine
    dsimp only
    rw [data_line_not_event_line h2]
    simp only [Bool.false_eq_true, if_false, h2, if_true, hne, hd, ne_eq,
      not_false_eq_true, if_true, hu]
  exact key _ (hreset s)

/-- C10 witness: an earlier frame declares kind "text"; a bare data
line follows a payload-less data line and is emitted as "message". -/
theorem data_line_resets_event_kind_witness :
    (processLine decWithTextKind "data:".toList).currentEvent = [] ∧
    (processLine (processLine decWithTextKind "data:".toList)
        "data: 7".toList).events =
      (processLine decWithTextKind "data:".toList).events ++
        [{ event := "message".toList, data := JVal.prim (JPrim.jnum 7) }] :=
  data_line_resets_event_kind decWithTextKind "data:".toList "data: 7".toList
    (JVal.prim (JPrim.jnum 7)) (by decide) (by decide) (by decide) (by decide)

/-- C2 (counterexample): when the orchestrator receives an error stream
event it surfaces the error to the progress state, but it does not call
stop() on the speech controller: the controller state is left entirely
unchanged (here with a non-empty pending buffer that stop() would have
cleared). -/
theorem error_event_does_not_stop_tts :
    (handleStreamEvent 0 errBoomEvent orchSpeaking).progress.step = "error".toList ∧
    (handleStreamEvent 0 errBoomEvent orchSpeaking).progress.error =
      some "boom".toList ∧
    (handleStreamEvent 0 errBoomEvent orchSpeaking).isAnalyzing = false ∧
    (handleStreamEvent 0 errBoomEvent orchSpeaking).tts = orchSpeaking.tts ∧
    (handleStreamEvent 0 errBoomEvent orchSpeaking).tts ≠
      ttsStop orchSpeaking.tts ∧
    (handleStreamEvent 0 errBoomEvent orchSpeaking).tts.pendingText =
      "abc".toList := by
  decide

/-- C2 (amended): an error stream event surfaces the carried error to
the externally visible progress state and ends the analyzing state, but
performs no call into the speech controller: for every orchestrator
state, the handler changes only progress, isAnalyzing and the pending
user-message marker, leaving the speech controller state untouched. -/
theorem error_event_surfaces_error_only (now : Nat) (ev : StreamEvent)
    (s : OrchState) (h : ev.event = "error".toList) :
    handleStreamEvent now ev s =
      { s with progress := { step := "error".toList, image := none,
                             totalImages := none,
                             error := jStrField ev.data "error".toList },
               isAnalyzing := false,
               hasUserMessage := false } := by
  unfold handleStreamEvent
  rw [h]
  simp

/-- C2 amended witness. -/
theorem error_event_surfaces_error_only_witness :
    handleStreamEvent 3 errBoomEvent orchIdle =
      { orchIdle with
          progress := { step := "error".toList, image := none,
                        totalImages := none, error := some "boom".toList },
          isAnalyzing := false,
          hasUserMessage := false } := by
  have h := error_event_surfaces_error_only 3 errBoomEvent orchIdle rfl
  rw [h]
  decide

/- ==================================================================
The streaming correspondence (C1): support lemmas.
================================================================== -/

theorem processTextF_id_of_trim_nil (f : Nat) (s : TTSState)
    (h : jsTrim s.pendingText = []) : processTextF f s = s := by
  cases f with
  | zero => rfl
  | succ f' =>
    unfold processTextF
    rw [if_pos]
    rw [h]
    simp

theorem onUtteranceEnd_spoken_pending (now : Nat) (s : TTSState) :
    (onUtteranceEnd now s).spoken = s.spoken ∧
    (onUtteranceEnd now s).pendingText = s.pendingText := by
  unfold onUtteranceEnd
  dsimp only
  repeat' split
  all_goals exact ⟨rfl, rfl⟩

theorem timerFire_of_trim_nil (s : TTSState) (h : jsTrim s.pendingText = []) :
    (timerFire s).spoken = s.spoken ∧ (timerFire s).pendingText = s.pendingText := by
  unfold timerFire
  split
  · have hid : processText { s with timerPending := false } =
        { s with timerPending := false } :=
      processTextF_id_of_trim_nil _ _ h
    rw [hid]
    exact ⟨rfl, rfl⟩
  · exact ⟨rfl, rfl⟩

theorem drain_of_trim_nil (now : Nat) :
    ∀ (n : Nat) (s : TTSState), jsTrim s.pendingText = [] →
      (drain now n s).spoken = s.spoken ∧
      (drain now n s).pendingText = s.pendingText := by
  intro n
  induction n with
  | zero =>
    intro s _
    exact ⟨rfl, rfl⟩
  | succ n ih =>
    intro s h
    have h1 := onUtteranceEnd_spoken_pending now s
    have h2 := timerFire_of_trim_nil (onUtteranceEnd now s) (by rw [h1.2]; exact h)
    have h3 := ih (timerFire (onUtteranceEnd now s)) (by rw [h2.2, h1.2]; exact h)
    unfold drain
    refine ⟨?_, ?_⟩
    · rw [h3.1, h2.1, h1.1]
    · rw [h3.2, h2.2, h1.2]

/-- The dispatch loop preserves the decomposition invariant: it only
ever extracts prefix sentences of the remainder, appending the cleaned
non-empty ones to the spoken log, and when streaming mode is off (after
flush, against a terminated text) it either starts an utterance or
exhausts the buffer, shrinking it strictly. -/
theorem processTextF_decomp :
    ∀ (f : Nat) (s : TTSState) (G : Str) (k : Nat) (ss : List Str) (rem w : Str),
      s.pendingText.length ≤ f →
      TDecomp G s k ss rem w →
      (s.isStreamingMode = false → isWsStr rem = true ∨ endsTermWs G = true) →
      ∃ k2 ss2 rem2 w2,
        TDecomp G (processTextF f s) k2 ss2 rem2 w2 ∧
        (s.isStreamingMode = false → isWsStr rem2 = true ∨ endsTermWs G = true) ∧
        (processTextF f s).isStreamingMode = s.isStreamingMode ∧
        (s.isStreamingMode = false →
          (processTextF f s).isProcessing = true ∨
            jsTrim (processTextF f s).pendingText = []) ∧
        (processTextF f s).pendingText.length ≤ s.pendingText.length ∧
        (s.isProcessing = false → jsTrim s.pendingText ≠ [] →
          s.isStreamingMode = false →
          (processTextF f s).pendingText.length < s.pendingText.length) := by
  intro f
  induction f with
  | zero =>
    intro s G k ss rem w hf hdec hside
    have hnil : s.pendingText = [] := List.eq_nil_of_length_eq_zero (by omega)
    refine ⟨k, ss, rem, w, hdec, hside, rfl, ?_, le_refl _, ?_⟩
    · intro _
      right
      show jsTrim s.pendingText = []
      rw [hnil]
      rfl
    · intro _ htr _
      rw [hnil] at htr
      exact absurd rfl htr
  | succ f ih =>
    intro s G k ss rem w hf hdec hside
    obtain ⟨hsent, hw, hspoken, hpend⟩ := hdec
    have hextEq : extract s.pendingText = extract rem := by
      rw [hpend]
      exact extract_ws_prefix hw
    unfold processTextF
    split
    · rename_i hg
      simp only [Bool.or_eq_true, decide_eq_true_eq] at hg
      refine ⟨k, ss, rem, w, ⟨hsent, hw, hspoken, hpend⟩, hside, rfl, ?_, le_refl _, ?_⟩
      · intro _
        rcases hg with hg | hg
        · exact Or.inl hg
        · exact Or.inr hg
      · intro hp htr _
        rcases hg with hg | hg
        · rw [hp] at hg
          exact absurd hg (by simp)
        · exact absurd hg htr
    · rename_i hg
      simp only [Bool.or_eq_true, decide_eq_true_eq, not_or] at hg
      obtain ⟨hp', htr⟩ := hg
      have hp : s.isProcessing = false := by
        cases hpp : s.isProcessing
        · rfl
        · exact absurd hpp hp'
      split
      · rename_i raw rest hext
        rw [hextEq] at hext
        have hsent2 := sentK_succ hsent hext
        have hrestlen : rest.length < rem.length := extract_length hext
        have hremlen : rem.length ≤ s.pendingText.length := by
          rw [hpend]
          simp
      -- if streaming mode is off, the remainder cannot be blank (it
      -- yielded a sentence), so the text must end in punctuation
        have hside2 : s.isStreamingMode = false → endsTermWs G = true := by
          intro hm
          rcases hside hm with hws | hends
          · exact absurd hext (by rw [extract_isWs_none hws]; simp)
          · exact hends
        dsimp only
        by_cases hclean : cleanTextForSpeech raw = []
        · rw [if_pos hclean]
          by_cases hrest : rest ≠ []
          · rw [if_pos hrest]
            have hdec2 : TDecomp G { s with pendingText := rest } (k + 1)
                (ss ++ [raw]) rest [] := by
              refine ⟨hsent2, rfl, ?_, by simp⟩
              show s.spoken = _
              rw [hspoken, List.map_append, List.filter_append]
              simp [hclean]
            have hrec := ih { s with pendingText := rest } G (k + 1) (ss ++ [raw])
              rest [] (by show rest.length ≤ f; omega) hdec2
              (fun hm => Or.inr (hside2 hm))
            obtain ⟨k2, ss2, rem2, w2, hd2, hs2, hm2, hpl2, hle2, _⟩ := hrec
            refine ⟨k2, ss2, rem2, w2, hd2, ?_, ?_, ?_, ?_, ?_⟩
            · intro hm
              exact hs2 hm
            · exact hm2
            · intro hm
              exact hpl2 hm
            · have : rest.length ≤ s.pendingText.length := by omega
              exact le_trans hle2 this
            · intro _ _ _
              have hle' : (processTextF f { s with pendingText := rest
                }).pendingText.length ≤ rest.length := hle2
              omega
          · rw [if_neg hrest]
            have hrestnil : rest = [] := not_not.mp hrest
            refine ⟨k + 1, ss ++ [raw], rest, [], ⟨hsent2, rfl, ?_, by simp⟩,
              ?_, rfl, ?_, ?_, ?_⟩
            · show s.spoken = _
              rw [hspoken, List.map_append, List.filter_append]
              simp [hclean]
            · intro _
              left
              rw [hrestnil]
              rfl
            · intro _
              right
              show jsTrim rest = []
              rw [hrestnil]
              rfl
            · show rest.length ≤ s.pendingText.length
              omega
            · intro _ _ _
              show rest.length < s.pendingText.length
              omega
        · rw [if_neg hclean]
          refine ⟨k + 1, ss ++ [raw], rest, [], ⟨hsent2, rfl, ?_, by simp⟩,
            ?_, rfl, ?_, ?_, ?_⟩
          · show s.spoken ++ [cleanTextForSpeech raw] = _
            rw [hspoken, List.map_append, List.filter_append]
            simp [hclean]
          · intro hm
            exact Or.inr (hside2 hm)
          · intro _
            left
            rfl
          · show rest.length ≤ s.pendingText.length
            omega
          · intro _ _ _
            show rest.length < s.pendingText.length
            omega
      · rename_i hext
        rw [hextEq] at hext
        split
        · rename_i hm
          refine ⟨k, ss, rem, w, ⟨hsent, hw, hspoken, hpend⟩, hside, rfl, ?_,
            le_refl _, ?_⟩
          · intro hmf
            rw [hmf] at hm
            exact absurd hm (by simp)
          · intro _ _ hmf
            rw [hmf] at hm
            exact absurd hm (by simp)
        · rename_i hm
          have hmf : s.isStreamingMode = false := by
            cases hmm : s.isStreamingMode
            · rfl
            · exact absurd hmm hm
          exfalso
          rcases hside hmf with hws | hends
          · apply htr
            rw [hpend, jsTrim_eq_nil_iff, isWsStr_append, hw, hws]
            rfl
          · have hremnw : isWsStr rem = false := by
              cases hrw : isWsStr rem
              · rfl
              · exact absurd
                  (by rw [hpend, jsTrim_eq_nil_iff, isWsStr_append, hw, hrw]; rfl) htr
            obtain ⟨pre, hpre⟩ := sentK_decomp hsent
            have hendsrem : endsTermWs rem = true := by
              rw [hpre, endsTermWs_append_right hremnw] at hends
              exact hends
            obtain ⟨c, hc, hct⟩ := exists_term_of_endsTermWs hendsrem
            rw [extract_none_iff] at hext
            rw [hext c hc] at hct
            exact absurd hct (by simp)

theorem preInv_processText {G : Str} {s : TTSState} (h : PreInv G s) :
    PreInv G (processText s) := by
  obtain ⟨k, ss, rem, w, hdec, hside⟩ := h
  cases hm : s.isStreamingMode
  · have htr : jsTrim s.pendingText = [] := by
      rw [hdec.2.2.2, jsTrim_eq_nil_iff, isWsStr_append, hdec.2.1, hside hm]
      rfl
    rw [show processText s = s from processTextF_id_of_trim_nil _ _ htr]
    exact ⟨k, ss, rem, w, hdec, hside⟩
  · obtain ⟨k2, ss2, rem2, w2, hd2, _, hm2, _, _, _⟩ :=
      processTextF_decomp s.pendingText.length s G k ss rem w (le_refl _) hdec
        (fun hx => absurd hx (by rw [hm]; simp))
    refine ⟨k2, ss2, rem2, w2, hd2, ?_⟩
    intro hx
    have hx2 : (processTextF s.pendingText.length s).isStreamingMode = false := hx
    rw [hm2, hm] at hx2
    exact absurd hx2 (by simp)

theorem preInv_speakToken {G : Str} {s : TTSState} (now : Nat) (tok : Str)
    (h : PreInv G s) : PreInv (G ++ tok) (speakToken now tok s) := by
  obtain ⟨k, ss, rem, w, ⟨hsent, hw, hspoken, hpend⟩, _⟩ := h
  obtain ⟨w2, rem2, hw2, hsent2, heq2⟩ := sentK_append tok hsent
  have hdec1 : TDecomp (G ++ tok)
      { s with pendingText := s.pendingText ++ tok, lastTokenTime := now,
               streamActive := true, isStreamingMode := true }
      k ss rem2 (w ++ w2) := by
    refine ⟨hsent2, by rw [isWsStr_append, hw, hw2]; rfl, hspoken, ?_⟩
    show s.pendingText ++ tok = (w ++ w2) ++ rem2
    rw [hpend, List.append_assoc, heq2, ← List.append_assoc]
  unfold speakToken
  dsimp only
  split
  · exact preInv_processText
      ⟨k, ss, rem2, w ++ w2, hdec1, fun hx => absurd hx (by simp)⟩
  · exact ⟨k, ss, rem2, w ++ w2, hdec1, fun hx => absurd hx (by simp)⟩

theorem preInv_utterEnd {G : Str} {s : TTSState} (now : Nat) (h : PreInv G s) :
    PreInv G (onUtteranceEnd now s) := by
  obtain ⟨k, ss, rem, w, ⟨hsent, hw, hspoken, hpend⟩, hside⟩ := h
  unfold onUtteranceEnd
  dsimp only
  split
  · exact ⟨k, ss, rem, w, ⟨hsent, hw, hspoken, hpend⟩, hside⟩
  · split
    · split
      · exact ⟨k, ss, rem, w, ⟨hsent, hw, hspoken, hpend⟩, hside⟩
      · exact ⟨k, ss, rem, w, ⟨hsent, hw, hspoken, hpend⟩, hside⟩
    · rename_i hnt
      refine ⟨k, ss, rem, w, ⟨hsent, hw, hspoken, hpend⟩, ?_⟩
      intro _
      have htr : jsTrim s.pendingText = [] := not_not.mp hnt
      rw [hpend, jsTrim_eq_nil_iff] at htr
      exact isWsStr_of_append_right htr

theorem preInv_utterErr {G : Str} {s : TTSState} (now : Nat) (h : PreInv G s) :
    PreInv G (onUtteranceError now s) := by
  obtain ⟨k, ss, rem, w, ⟨hsent, hw, hspoken, hpend⟩, hside⟩ := h
  unfold onUtteranceError
  dsimp only
  split
  · exact ⟨k, ss, rem, w, ⟨hsent, hw, hspoken, hpend⟩, hside⟩
  · split
    · split
      · exact preInv_processText
          ⟨k, ss, rem, w, ⟨hsent, hw, hspoken, hpend⟩, hside⟩
      · exact ⟨k, ss, rem, w, ⟨hsent, hw, hspoken, hpend⟩, hside⟩
    · exact ⟨k, ss, rem, w, ⟨hsent, hw, hspoken, hpend⟩, hside⟩

theorem preInv_timerFire {G : Str} {s : TTSState} (h : PreInv G s) :
    PreInv G (timerFire s) := by
  obtain ⟨k, ss, rem, w, ⟨hsent, hw, hspoken, hpend⟩, hside⟩ := h
  unfold timerFire
  split
  · exact preInv_processText
      ⟨k, ss, rem, w, ⟨hsent, hw, hspoken, hpend⟩, hside⟩
  · exact ⟨k, ss, rem, w, ⟨hsent, hw, hspoken, hpend⟩, hside⟩

theorem preInv_init : PreInv ([] : Str) initTTS :=
  ⟨0, [], [], [], ⟨rfl, rfl, rfl, rfl⟩, fun _ => rfl⟩

/-- Every interleaving of token feeds, engine callbacks and timer
firings keeps the turn invariant, accumulating the fed tokens. -/
theorem preInv_run :
    ∀ (evs : List TTSEvent), evs.all allowedEv = true →
      ∀ (G : Str) (s : TTSState), PreInv G s →
        PreInv (G ++ (feedsOf evs).flatten) (runEvents evs s) := by
  intro evs
  induction evs with
  | nil =>
    intro _ G s h
    simpa [runEvents, feedsOf] using h
  | cons e es ih =>
    intro hall G s h
    rw [List.all_cons, Bool.and_eq_true] at hall
    obtain ⟨hae, hes⟩ := hall
    cases e with
    | feed now tok =>
      have h3 := ih hes (G ++ tok) (speakToken now tok s) (preInv_speakToken now tok h)
      show PreInv (G ++ (tok ++ (feedsOf es).flatten)) (runEvents es (speakToken now tok s))
      rw [← List.append_assoc]
      exact h3
    | flushEv now => exact absurd hae (by simp [allowedEv])
    | stopEv => exact absurd hae (by simp [allowedEv])
    | speakEv now t => exact absurd hae (by simp [allowedEv])
    | utterEnd now => exact ih hes G (onUtteranceEnd now s) (preInv_utterEnd now h)
    | utterErr now => exact ih hes G (onUtteranceError now s) (preInv_utterErr now h)
    | timer => exact ih hes G (timerFire s) (preInv_timerFire h)

theorem goodG_flushedText (G : Str) : GoodG (flushedText G) := by
  by_cases he : endsTermWs G = true
  · unfold flushedText
    have hnc : ¬ ((decide (jsTrim G ≠ []) && !endsTermWs G) = true) := by
      rw [he]
      simp
    rw [if_neg hnc]
    exact Or.inl he
  · by_cases ht : jsTrim G = []
    · unfold flushedText
      have hnc : ¬ ((decide (jsTrim G ≠ []) && !endsTermWs G) = true) := by
        simp [ht]
      rw [if_neg hnc]
      exact Or.inr (jsTrim_eq_nil_iff.mp ht)
    · unfold flushedText
      have hef : endsTermWs G = false := by
        cases hh : endsTermWs G
        · rfl
        · exact absurd hh he
      have hc : (decide (jsTrim G ≠ []) && !endsTermWs G) = true := by
        simp [ht, hef]
      rw [if_pos hc]
      exact Or.inl (endsTermWs_append_term (by decide))

/-- flush() establishes the drain invariant against the flushed text:
the decomposition carries over (with the appended period when the
buffer lacked punctuation), streaming mode is off, and either an
utterance is in flight or the buffer is blank. -/
theorem postInv_flush {G : Str} {s : TTSState} (now : Nat) (h : PreInv G s) :
    PostInv (flushedText G) (flush now s) := by
  obtain ⟨k, ss, rem, w, ⟨hsent, hw, hspoken, hpend⟩, _⟩ := h
  by_cases htrim : jsTrim s.pendingText = []
  · -- blank buffer: nothing appended, dispatch is a no-op
    have hwsrem : isWsStr rem = true := by
      rw [hpend, jsTrim_eq_nil_iff] at htrim
      exact isWsStr_of_append_right htrim
    have htrim' : jsTrim s.pendingText = [] := by
      rw [hpend, jsTrim_eq_nil_iff, isWsStr_append, hw, hwsrem]
      rfl
    have hfG : flushedText G = G := by
      unfold flushedText
      cases k with
      | zero =>
        simp only [sentK, Option.some.injEq, Prod.mk.injEq] at hsent
        have hGws : isWsStr G = true := by
          rw [hsent.2]
          exact hwsrem
        have hnc : ¬ ((decide (jsTrim G ≠ []) && !endsTermWs G) = true) := by
          simp [jsTrim_eq_nil_iff.mpr hGws]
        rw [if_neg hnc]
      | succ k' =>
        have hends := sentK_ends hsent (by omega) hwsrem
        have hnc : ¬ ((decide (jsTrim G ≠ []) && !endsTermWs G) = true) := by
          rw [hends]
          simp
        rw [if_neg hnc]
    rw [hfG]
    unfold flush
    dsimp only
    have hcondS : ¬ ((decide (jsTrim s.pendingText ≠ []) &&
        !endsTermWs s.pendingText) = true) := by
      simp [htrim']
    rw [if_neg hcondS]
    split
    · show PostInv G (processText (flushPre now s))
      have hid : processText (flushPre now s) = flushPre now s :=
        processTextF_id_of_trim_nil _ _ htrim'
      rw [hid]
      exact ⟨⟨k, ss, rem, w, hsent, hw, hspoken, hpend⟩, rfl, Or.inr htrim'⟩
    · rename_i hproc
      have hp1 : s.isProcessing = true := by
        cases hpp : s.isProcessing
        · rw [hpp] at hproc
          exact absurd rfl hproc
        · rfl
      exact ⟨⟨k, ss, rem, w, hsent, hw, hspoken, hpend⟩, rfl, Or.inl hp1⟩
  · -- non-blank buffer
    have hremnw : isWsStr rem = false := by
      cases hrw : isWsStr rem
      · rfl
      · exact absurd
          (by rw [hpend, jsTrim_eq_nil_iff, isWsStr_append, hw, hrw]; rfl) htrim
    obtain ⟨pre, hpre⟩ := sentK_decomp hsent
    have hendseq : endsTermWs s.pendingText = endsTermWs rem := by
      rw [hpend]
      exact endsTermWs_append_right hremnw
    have hendsG : endsTermWs G = endsTermWs rem := by
      rw [hpre]
      exact endsTermWs_append_right hremnw
    have htrimG : jsTrim G ≠ [] := by
      rw [jsTrim_ne_nil_iff, hpre, isWsStr_append, hremnw]
      simp
    by_cases hends : endsTermWs rem = true
    · -- already punctuated: nothing appended
      have hfG : flushedText G = G := by
        unfold flushedText
        have hnc : ¬ ((decide (jsTrim G ≠ []) && !endsTermWs G) = true) := by
          rw [hendsG, hends]
          simp
        rw [if_neg hnc]
      rw [hfG]
      unfold flush
      dsimp only
      have hcondS : ¬ ((decide (jsTrim s.pendingText ≠ []) &&
          !endsTermWs s.pendingText) = true) := by
        rw [hendseq, hends]
        simp
      rw [if_neg hcondS]
      split
      · show PostInv G (processText (flushPre now s))
        have hdec1 : TDecomp G (flushPre now s) k ss rem w :=
          ⟨hsent, hw, hspoken, hpend⟩
        obtain ⟨k2, ss2, rem2, w2, hd2, _, hm2, hpl2, _, _⟩ :=
          processTextF_decomp (flushPre now s).pendingText.length
            (flushPre now s) G k ss rem w (le_refl _) hdec1
            (fun _ => Or.inr (by rw [hendsG]; exact hends))
        exact ⟨⟨k2, ss2, rem2, w2, hd2⟩, hm2, hpl2 rfl⟩
      · rename_i hproc
        have hp1 : s.isProcessing = true := by
          cases hpp : s.isProcessing
          · rw [hpp] at hproc
            exact absurd rfl hproc
          · rfl
        exact ⟨⟨k, ss, rem, w, hsent, hw, hspoken, hpend⟩, rfl, Or.inl hp1⟩
    · -- unpunctuated: a period is appended to the buffer and the text
      have hendsF : endsTermWs rem = false := by
        cases hh : endsTermWs rem
        · rfl
        · exact absurd hh hends
      have hfG : flushedText G = G ++ ['.'] := by
        unfold flushedText
        have hc : (decide (jsTrim G ≠ []) && !endsTermWs G) = true := by
          rw [hendsG, hendsF]
          simp [htrimG]
        rw [if_pos hc]
      rw [hfG]
      obtain ⟨w2, rem2, hw2, hsent2, heq2⟩ := sentK_append ['.'] hsent
      unfold flush
      dsimp only
      have hcondS : (decide (jsTrim s.pendingText ≠ []) &&
          !endsTermWs s.pendingText) = true := by
        rw [hendseq, hendsF]
        simp [htrim]
      rw [if_pos hcondS]
      have hdec2 : TDecomp (G ++ ['.']) (flushApp now s) k ss rem2 (w ++ w2) := by
        refine ⟨hsent2, by rw [isWsStr_append, hw, hw2]; rfl, hspoken, ?_⟩
        show s.pendingText ++ ['.'] = (w ++ w2) ++ rem2
        rw [hpend, List.append_assoc, heq2, ← List.append_assoc]
      have hgood2 : endsTermWs (G ++ ['.']) = true :=
        endsTermWs_append_term (by decide)
      split
      · show PostInv (G ++ ['.']) (processText (flushApp now s))
        obtain ⟨k2, ss2, remB, wB, hd2, _, hm2, hpl2, _, _⟩ :=
          processTextF_decomp (flushApp now s).pendingText.length
            (flushApp now s) (G ++ ['.']) k ss rem2 (w ++ w2) (le_refl _) hdec2
            (fun _ => Or.inr hgood2)
        exact ⟨⟨k2, ss2, remB, wB, hd2⟩, hm2, hpl2 rfl⟩
      · rename_i hproc
        have hp1 : s.isProcessing = true := by
          cases hpp : s.isProcessing
          · rw [hpp] at hproc
            exact absurd rfl hproc
          · rfl
        exact ⟨⟨k, ss, rem2, w ++ w2, hdec2⟩, rfl, Or.inl hp1⟩

/-- With enough completion/timer rounds after flush, the controller
drains: the spoken log ends up exactly the cleaned non-empty sentences
of the flushed text. -/
theorem drain_complete (now : Nat) (G : Str) (hG : GoodG G) :
    ∀ (n : Nat) (s : TTSState), PostInv G s → s.pendingText.length < n →
      (drain now n s).spoken =
        ((sentencesOf G).map cleanTextForSpeech).filter (fun x => x ≠ []) := by
  intro n
  induction n with
  | zero =>
    intro s _ hlen
    omega
  | succ n ih =>
    intro s hpost hlen
    obtain ⟨⟨k, ss, rem, w, hsent, hw, hspoken, hpend⟩, hmode, hdisj⟩ := hpost
    by_cases htrim : jsTrim s.pendingText = []
    · -- blank buffer: the drain rounds are no-ops and the log is final
      have hwsrem : isWsStr rem = true := by
        rw [hpend, jsTrim_eq_nil_iff] at htrim
        exact isWsStr_of_append_right htrim
      have hdr := drain_of_trim_nil now (n + 1) s htrim
      rw [hdr.1, hspoken, sentencesOf_of_ws_rem hsent hwsrem]
    · -- an utterance is in flight: complete it, fire the continuation
      have hproc : s.isProcessing = true := by
        cases hdisj with
        | inl h => exact h
        | inr h => exact absurd h htrim
      have hstep1 : onUtteranceEnd now s =
          { s with isProcessing := false, timerPending := true } := by
        unfold onUtteranceEnd
        rw [hproc]
        rw [if_neg (by simp)]
        dsimp only
        rw [if_pos htrim]
        have hc : (!s.isStreamingMode ||
            isStreamActive now { s with isProcessing := false }) = true := by
          rw [hmode]
          rfl
        rw [if_pos hc]
      have hstep2 : timerFire (onUtteranceEnd now s) =
          processText { s with isProcessing := false, timerPending := false } := by
        rw [hstep1]
        unfold timerFire
        rw [if_pos rfl]
      have hsideOr : isWsStr rem = true ∨ endsTermWs G = true := by
        cases hG with
        | inl h => exact Or.inr h
        | inr h =>
          obtain ⟨pre, hpre⟩ := sentK_decomp hsent
          have h2 : isWsStr (pre ++ rem) = true := by
            rw [← hpre]
            exact h
          exact Or.inl (isWsStr_of_append_right h2)
      have hdecS : TDecomp G { s with isProcessing := false, timerPending := false } k ss rem w :=
        ⟨hsent, hw, hspoken, hpend⟩
      obtain ⟨k2, ss2, rem2, w2, hd2, _, hm2, hdisj2, _, hlt⟩ :=
        processTextF_decomp s.pendingText.length
          { s with isProcessing := false, timerPending := false } G k ss rem w
          (le_refl _) hdecS (fun _ => hsideOr)
      have hlt2 : (processText { s with isProcessing := false, timerPending := false
          }).pendingText.length < s.pendingText.length :=
        hlt rfl htrim hmode
      have hrec := ih (processText { s with isProcessing := false, timerPending := false })
        ⟨⟨k2, ss2, rem2, w2, hd2⟩, hm2.trans hmode, hdisj2 hmode⟩ (by omega)
      rw [show drain now (n + 1) s =
            drain now n (timerFire (onUtteranceEnd now s)) from rfl,
          hstep2]
      exact hrec

/-- C1: the original statement fails on a turn whose text lacks final
punctuation: feeding the single token "hi" and flushing speaks "hi."
(flush appends the terminal period), while the sentence split of the
concatenation "hi" extracts no sentence at all. -/
theorem c1_counterexample :
    (drain 1000 ((flush 900 (runEvents c1bad initTTS)).pendingText.length + 1)
        (flush 900 (runEvents c1bad initTTS))).spoken ≠
      ((sentencesOf ((feedsOf c1bad).flatten)).map cleanTextForSpeech).filter
        (fun x => x ≠ []) := by
  decide

/-- C1 (amended): for every sequence of feedToken calls interleaved
arbitrarily with utterance completions, errors and continuation-timer
firings, followed by flush() and enough completion/timer rounds to
drain, the utterances handed to the synthesis engine are exactly
cleanForSpeech applied to each element of the sentence split of the
concatenation of the tokens with a terminal period appended when
missing (flush's contract), in order, with no sentence skipped or
duplicated, empty-after-cleaning units excepted. -/
theorem C1_amended (evs : List TTSEvent) (hall : evs.all allowedEv = true)
    (fnow dnow : Nat) :
    (drain dnow ((flush fnow (runEvents evs initTTS)).pendingText.length + 1)
        (flush fnow (runEvents evs initTTS))).spoken =
      expectedSpoken ((feedsOf evs).flatten) := by
  have h1 := preInv_run evs hall [] initTTS preInv_init
  rw [List.nil_append] at h1
  have h2 := postInv_flush fnow h1
  exact drain_complete dnow (flushedText ((feedsOf evs).flatten))
    (goodG_flushedText _) _ _ h2 (by omega)

/-- C1 witness: a concrete streaming turn with a mid-sentence token
split, an interleaved completion and a trailing fragment. -/
theorem C1_amended_witness :
    (drain 1000 ((flush 900 (runEvents c1evs initTTS)).pendingText.length + 1)
        (flush 900 (runEvents c1evs initTTS))).spoken =
      expectedSpoken ((feedsOf c1evs).flatten) :=
  C1_amended c1evs (by decide) 900 1000

end ForensicAvatar
